import Mathlib

/-!
Verification development for `src/binning.py` (specpride representative
spectrum creator).  The Python code is shallowly embedded: Python strings
become `List Char`, Python floats become exact rationals `ℚ`, numpy arrays
indexed by bin become functions `ℕ → α`, and fallible code returns
`Except`.  Numpy's fancy-indexed in-place addition `a[idx] += v` is
modelled with its real semantics: the right-hand side is computed from the
old array, and for duplicated indices the assignment of the last
occurrence wins (no accumulation across duplicates).
-/

set_option allowUnsafeReducibility true in
attribute [semireducible] Rat.add Rat.sub Rat.mul Rat.inv Rat.div

namespace Specpride

/-- Decidable equality of `Except` results, for evaluating the embedded
functions on concrete inputs. -/
instance {ε α : Type} [DecidableEq ε] [DecidableEq α] : DecidableEq (Except ε α) :=
  fun x y =>
  match x, y with
  | .error a, .error b =>
    match decEq a b with
    | isTrue h => isTrue (by rw [h])
    | isFalse h => isFalse (fun k => h (by injection k))
  | .ok a, .ok b =>
    match decEq a b with
    | isTrue h => isTrue (by rw [h])
    | isFalse h => isFalse (fun k => h (by injection k))
  | .error _, .ok _ => isFalse (fun k => by injection k)
  | .ok _, .error _ => isFalse (fun k => by injection k)

/-! ### Python string primitives over `List Char` -/

/-- The whitespace set of Python's `str.strip()` (ASCII part). -/
def isWs (c : Char) : Bool :=
  c == ' ' || c == '\t' || c == '\n' || c == '\r' || c == '\x0b' || c == '\x0c'

/-- Python `str.strip()`: drop whitespace from both ends. -/
def pyStrip (cs : List Char) : List Char :=
  ((cs.dropWhile isWs).reverse.dropWhile isWs).reverse

/-- Python `str.strip("+")`: drop `+` characters from both ends. -/
def stripPlus (cs : List Char) : List Char :=
  ((cs.dropWhile (fun c => c == '+')).reverse.dropWhile (fun c => c == '+')).reverse

/-- Python `str.split(sep)` for a single-character separator: split at every
occurrence of `sep`, keeping empty segments.  Always returns at least one
segment. -/
def splitOnChar (sep : Char) : List Char → List (List Char)
  | [] => [[]]
  | c :: cs =>
    match splitOnChar sep cs with
    | [] => [[]]
    | h :: t => if c == sep then [] :: h :: t else (c :: h) :: t

/-- Numeric value of an ASCII digit character. -/
def digitVal (c : Char) : ℕ := c.toNat - 48

/-- Value of a (nonempty) string of decimal digits. -/
def digitsToNat (cs : List Char) : ℕ := cs.foldl (fun a c => 10 * a + digitVal c) 0

/-- Every character is an ASCII decimal digit. -/
def allDigits (cs : List Char) : Bool := cs.all Char.isDigit

/-- Python `int(s)` (sign plus decimal digits; the underscore extension of
Python's grammar is not modelled).  Returns `none` where Python raises
`ValueError`. -/
def pyIntOfChars (cs : List Char) : Option ℤ :=
  match pyStrip cs with
  | [] => none
  | d :: ds =>
    if d == '-' then
      (if ds ≠ [] ∧ allDigits ds then some (-(digitsToNat ds : ℤ)) else none)
    else if d == '+' then
      (if ds ≠ [] ∧ allDigits ds then some ((digitsToNat ds : ℤ)) else none)
    else
      (if allDigits (d :: ds) then some ((digitsToNat (d :: ds) : ℤ)) else none)

/-- Split a float literal body at the first exponent marker `e`/`E`. -/
def breakAtExp : List Char → List Char × Option (List Char)
  | [] => ([], none)
  | c :: cs =>
    if c == 'e' || c == 'E' then ([], some cs)
    else
      match breakAtExp cs with
      | (m, r) => (c :: m, r)

/-- Parse the mantissa of a float literal: digits with at most one decimal
point, at least one digit overall. -/
def parseMantissa (cs : List Char) : Option ℚ :=
  match splitOnChar '.' cs with
  | [ip] => if ip ≠ [] ∧ allDigits ip then some ((digitsToNat ip : ℚ)) else none
  | [ip, fp] =>
    if (ip ++ fp) ≠ [] ∧ allDigits ip ∧ allDigits fp then
      some (((digitsToNat ip : ℚ) * 10 ^ fp.length + (digitsToNat fp : ℚ)) / 10 ^ fp.length)
    else none
  | _ => none

/-- Parse an exponent: optional sign and a nonempty digit string. -/
def parseExp (cs : List Char) : Option ℤ :=
  match cs with
  | '-' :: ds => if ds ≠ [] ∧ allDigits ds then some (-(digitsToNat ds : ℤ)) else none
  | '+' :: ds => if ds ≠ [] ∧ allDigits ds then some ((digitsToNat ds : ℤ)) else none
  | ds => if ds ≠ [] ∧ allDigits ds then some ((digitsToNat ds : ℤ)) else none

/-- Python `float(s)` on decimal notation, valued in exact rationals.
Returns `none` where Python raises `ValueError`.  (The special tokens
`inf`/`nan`, which have no rational value, are not modelled.) -/
def pyFloatOfChars (cs : List Char) : Option ℚ :=
  let t := pyStrip cs
  let sb : ℚ × List Char :=
    match t with
    | '-' :: r => (-1, r)
    | '+' :: r => (1, r)
    | r => (1, r)
  match breakAtExp sb.2 with
  | (mant, none) => (parseMantissa mant).map (fun m => sb.1 * m)
  | (mant, some ec) =>
    match parseMantissa mant, parseExp ec with
    | some m, some e => some (sb.1 * m * (10 : ℚ) ^ e)
    | _, _ => none

/-! ### Data model -/

/-- A parsed MGF record (`peaklist` dict of the source).  The precursor
fields are optional because the Python dict acquires the corresponding keys
only when a `PEPMASS=` / `CHARGE=` line is seen; `read_spectra_clustered_mgf`
performs no completeness check before emitting a record at `END IONS`. -/
structure PeakList where
  cluster_id : List Char
  spectrum_usi : List Char
  mz_array : List ℚ
  intensity_array : List ℚ
  precursor_mz : Option ℚ
  precursor_charge : Option ℤ
deriving DecidableEq

/-- Python exceptions that `read_spectra_clustered_mgf` can raise:
`IndexError` (list index out of range), `ValueError` (bad numeric token),
`NameError` (field line before any `TITLE=` line defined `peaklist`). -/
inductive ParseErr where
  | indexErr : ParseErr
  | valueErr : ParseErr
  | nameErr : ParseErr
deriving DecidableEq

/-- State of the line loop in `read_spectra_clustered_mgf`: the `peaklist`
variable (if assigned yet) and the `all_spectra` list. -/
structure ParseState where
  current : Option PeakList
  all_spectra : List PeakList
deriving DecidableEq

/-! ### The parser `read_spectra_clustered_mgf`, line by line

The Python loop body is five independent `if` statements; each one is a
handler below and `parseLine` chains them.  One divergence from Python's
object model is not modelled (and not exercised by any claim): after
`END IONS`, Python's `peaklist` variable still aliases the dict just
appended, so a stray field line before the next `TITLE=` would mutate the
emitted record in place. -/

/-- `if line[:6] == "TITLE=":` — open a new record; `title.split(';')[1]`
raises `IndexError` when the title has no semicolon. -/
def handleTitle (st : ParseState) (line : List Char) : Except ParseErr ParseState :=
  if line.take 6 = "TITLE=".toList then
    match splitOnChar ';' (pyStrip (line.drop 6)) with
    | p0 :: p1 :: _ =>
      .ok { st with current := some ⟨p0, p1, [], [], none, none⟩ }
    | _ => .error .indexErr
  else .ok st

/-- `if line[:8] == "PEPMASS=":` — `float(line[8:].strip())`. -/
def handlePepmass (st : ParseState) (line : List Char) : Except ParseErr ParseState :=
  if line.take 8 = "PEPMASS=".toList then
    match st.current with
    | none => .error .nameErr
    | some pl =>
      match pyFloatOfChars (line.drop 8) with
      | some v => .ok { st with current := some { pl with precursor_mz := some v } }
      | none => .error .valueErr
  else .ok st

/-- `if line[:7] == "CHARGE=":` — `int(line[7:].strip().strip("+"))`. -/
def handleCharge (st : ParseState) (line : List Char) : Except ParseErr ParseState :=
  if line.take 7 = "CHARGE=".toList then
    match st.current with
    | none => .error .nameErr
    | some pl =>
      match pyIntOfChars (stripPlus (pyStrip (line.drop 7))) with
      | some v => .ok { st with current := some { pl with precursor_charge := some v } }
      | none => .error .valueErr
  else .ok st

/-- `if line[0].isdigit():` — `peak = line.strip().split(' ')`, then
`float(peak[0])` and `float(peak[1])` are appended to the parallel arrays.
A missing second token raises `IndexError`; a non-numeric token raises
`ValueError`.  (A line read from a file is never the empty string, since it
carries its newline; the empty line is treated as not digit-initial.) -/
def handlePeak (st : ParseState) (line : List Char) : Except ParseErr ParseState :=
  if (match line with | [] => false | c :: _ => c.isDigit) then
    match st.current with
    | none => .error .nameErr
    | some pl =>
      match splitOnChar ' ' (pyStrip line) with
      | [] => .error .indexErr
      | p0 :: rest =>
        match pyFloatOfChars p0 with
        | none => .error .valueErr
        | some mz =>
          match rest with
          | [] => .error .indexErr
          | p1 :: _ =>
            match pyFloatOfChars p1 with
            | none => .error .valueErr
            | some inten =>
              .ok { st with current := some { pl with
                      mz_array := pl.mz_array ++ [mz],
                      intensity_array := pl.intensity_array ++ [inten] } }
  else .ok st

/-- `if line.strip() == "END IONS":` — emit the current record, with no
completeness check on the precursor fields. -/
def handleEnd (st : ParseState) (line : List Char) : Except ParseErr ParseState :=
  if pyStrip line = "END IONS".toList then
    match st.current with
    | none => .error .nameErr
    | some pl => .ok { st with all_spectra := st.all_spectra ++ [pl] }
  else .ok st

/-- Sequencing of two statements in the loop body: a raised exception
aborts the iteration (and the whole loop). -/
def exSeq (a : Except ParseErr ParseState)
    (f : ParseState → Except ParseErr ParseState) : Except ParseErr ParseState :=
  match a with
  | .error e => .error e
  | .ok st => f st

/-- One iteration of the `for line in mgf` loop: the five independent `if`
statements in source order. -/
def parseLine (st : ParseState) (line : List Char) : Except ParseErr ParseState :=
  exSeq (handleTitle st line) (fun st1 =>
    exSeq (handlePepmass st1 line) (fun st2 =>
      exSeq (handleCharge st2 line) (fun st3 =>
        exSeq (handlePeak st3 line) (fun st4 =>
          handleEnd st4 line))))

/-- The line loop of `read_spectra_clustered_mgf`. -/
def parseLines (st : ParseState) : List (List Char) → Except ParseErr ParseState
  | [] => .ok st
  | l :: ls =>
    match parseLine st l with
    | .error e => .error e
    | .ok st' => parseLines st' ls

/-- Grouping of `all_spectra` by `cluster_id` into a dict, modelled as an
association list in first-encounter key order (Python dicts preserve
insertion order). -/
def groupClusters (pls : List PeakList) : List (List Char × List PeakList) :=
  pls.foldl (fun acc pl =>
    if acc.any (fun g => g.1 = pl.cluster_id) then
      acc.map (fun g => if g.1 = pl.cluster_id then (g.1, g.2 ++ [pl]) else g)
    else acc ++ [(pl.cluster_id, [pl])]) []

/-- `read_spectra_clustered_mgf`: parse all lines, then group the records
by cluster id. -/
def read_spectra_clustered_mgf (lines : List (List Char)) :
    Except ParseErr (List (List Char × List PeakList)) :=
  match parseLines ⟨none, []⟩ lines with
  | .error e => .error e
  | .ok st => .ok (groupClusters st.all_spectra)

/-! ### The binning engine `combine_bin_mean` -/

/-- Python `int(q)` / numpy `.astype(int)` on an exact rational: truncation
toward zero. -/
def pyTrunc (q : ℚ) : ℤ := if q < 0 then ⌈q⌉ else ⌊q⌋

/-- Errors `combine_bin_mean` can raise: `KeyError` (a member record is
missing its `precursor mz` / `precursor charge` key), `AssertionError`
(the precursor-charge consistency assert), `IndexError` (`charges[0]` on an
empty cluster). -/
inductive BinErr where
  | keyErr : BinErr
  | assertionErr : BinErr
  | indexErr : BinErr
deriving DecidableEq

/-- The mutable accumulators of `combine_bin_mean`: the three bin-indexed
arrays (modelled as total functions on bin indices) and the two
precursor-metadata lists. -/
structure MergeAcc where
  intensities : ℕ → ℚ
  mzs : ℕ → ℚ
  n_peaks : ℕ → ℕ
  precursor_mzs : List ℚ
  precursor_charges : List ℤ

/-- Zero-initialized accumulators (`np.zeros`). -/
def mergeInit : MergeAcc := ⟨fun _ => 0, fun _ => 0, fun _ => 0, [], []⟩

/-- Pointwise array update. -/
def updateAt (a : ℕ → α) (k : ℕ) (v : α) : ℕ → α :=
  fun i => if i = k then v else a i

/-- Numpy fancy-indexed in-place addition `a[idx] += vals` (given here as a
list of `(index, value)` pairs): the right-hand side `a[idx] + vals` is
computed from the old array and then assigned position by position, so for
a duplicated index the assignment of the LAST occurrence wins — duplicates
are NOT accumulated (that would require `np.add.at`). -/
def scatterAdd [Add α] (a : ℕ → α) (pairs : List (ℕ × α)) : ℕ → α :=
  pairs.foldl (fun acc p => updateAt acc p.1 (a p.1 + p.2)) a

/-- The in-range `(m/z, intensity)` pairs of one member: the boolean-mask
restriction `(mz_array >= minimum) & (mz_array < maximum)` applied to both
parallel arrays (expressed on the zipped pairs; the parser keeps the two
arrays the same length). -/
def inRangePairs (minimum maximum : ℚ) (pl : PeakList) : List (ℚ × ℚ) :=
  (pl.mz_array.zip pl.intensity_array).filter
    (fun p => decide (minimum ≤ p.1) && decide (p.1 < maximum))

/-- Bin location of one m/z value:
`((mz - minimum) / binsize).astype(int)`.  For an in-range m/z and a
positive bin width the quotient is nonnegative, so the truncation is a
floor. -/
def binIndex (minimum binsize : ℚ) (mz : ℚ) : ℕ :=
  (pyTrunc ((mz - minimum) / binsize)).toNat

/-- Bin locations of one member's in-range peaks. -/
def memberBins (minimum maximum binsize : ℚ) (pl : PeakList) : List ℕ :=
  (inRangePairs minimum maximum pl).map (fun p => binIndex minimum binsize p.1)

/-- The `(bin, intensity)` scatter list of one member
(`merged_spectrum['intensities'][bin_array] += intensity_array`). -/
def memberIntPairs (minimum maximum binsize : ℚ) (pl : PeakList) : List (ℕ × ℚ) :=
  (memberBins minimum maximum binsize pl).zip
    ((inRangePairs minimum maximum pl).map Prod.snd)

/-- The `(bin, m/z)` scatter list of one member
(`merged_spectrum['mzs'][bin_array] += mz_array`). -/
def memberMzPairs (minimum maximum binsize : ℚ) (pl : PeakList) : List (ℕ × ℚ) :=
  (memberBins minimum maximum binsize pl).zip
    ((inRangePairs minimum maximum pl).map Prod.fst)

/-- One iteration of the `for peaklist in peaklists` loop: scatter the
member's in-range peaks into the three accumulator arrays, then append the
member's precursor metadata (`peaklist['precursor mz']` /
`peaklist['precursor charge']` raise `KeyError` when the parsed record
never saw the corresponding line). -/
def addPeaklist (minimum maximum binsize : ℚ) (acc : MergeAcc) (pl : PeakList) :
    Except BinErr MergeAcc :=
  let n' := scatterAdd acc.n_peaks
    ((memberBins minimum maximum binsize pl).map (fun b => (b, 1)))
  let i' := scatterAdd acc.intensities (memberIntPairs minimum maximum binsize pl)
  let m' := scatterAdd acc.mzs (memberMzPairs minimum maximum binsize pl)
  match pl.precursor_mz, pl.precursor_charge with
  | some pmz, some pc =>
    .ok { intensities := i', mzs := m', n_peaks := n',
          precursor_mzs := acc.precursor_mzs ++ [pmz],
          precursor_charges := acc.precursor_charges ++ [pc] }
  | _, _ => .error .keyErr

/-- The member loop of `combine_bin_mean`. -/
def runPeaklists (minimum maximum binsize : ℚ) (acc : MergeAcc) :
    List PeakList → Except BinErr MergeAcc
  | [] => .ok acc
  | pl :: rest =>
    match addPeaklist minimum maximum binsize acc pl with
    | .error e => .error e
    | .ok acc' => runPeaklists minimum maximum binsize acc' rest

/-- `all(x == charges[0] for x in charges)`: vacuously true on the empty
list (the generator never evaluates `charges[0]`). -/
def chargesUniform (charges : List ℤ) : Bool :=
  charges.all (fun x => x == charges.headD 0)

/-- `int(len(peaklists) * 0.25) + 1` when the quorum policy is enabled,
else the initial value `1`. -/
def peakQuorumOf (n : ℕ) (apply_peak_quorum : Bool) : ℕ :=
  if apply_peak_quorum then (pyTrunc ((n : ℚ) * (1 / 4))).toNat + 1 else 1

/-- Pointwise `np.divide` against the integer count array, on entries that
are `none` = NaN.  `NaN / n = NaN`, and `0 / 0 = NaN`; a nonzero sum over a
zero count cannot occur (a bin no peak reached has both sums zero), so the
`x / 0 = ±inf` branch of numpy is unreachable and not modelled. -/
def divEntry (e : Option ℚ) (n : ℕ) : Option ℚ :=
  match e with
  | none => none
  | some v => if n = 0 then none else some (v / (n : ℚ))

/-- `np.mean` of a list (unreachable for the empty list in the successful
path of `combine_bin_mean`, since `charges[0]` raises first). -/
def listMean (xs : List ℚ) : ℚ := xs.sum / (xs.length : ℚ)

/-- The consensus record returned by `combine_bin_mean` (the returned dict
after the `del` statements, minus the grid echo fields).  The consensus
m/z entries keep the `Option` so that a NaN produced by the `mzs == 0`
sentinel check surviving into the output remains observable. -/
structure MergedSpectrum where
  mzs : List (Option ℚ)
  intensities : List ℚ
  precursor_mz : ℚ
  precursor_charge : ℤ
deriving DecidableEq

/-- `array_size = int((maximum - minimum) / binsize) + 1`: the number of
bins of the accumulator arrays. -/
def arraySizeOf (minimum maximum binsize : ℚ) : ℕ :=
  (pyTrunc ((maximum - minimum) / binsize)).toNat + 1

/-- The tail of `combine_bin_mean` after the assert: quorum masking of the
intensity sums (`intensities[n_peaks < peak_quorum] = np.nan`), the mean
divisions, the `nan_mask` drawn from the intensity array, the `mzs == 0`
sentinel, and the assembly of both output arrays through the SAME
`nan_mask`, in ascending bin order over the `array_size` bins. -/
def assemble (minimum maximum binsize : ℚ) (quorum : ℕ) (acc : MergeAcc)
    (c : ℤ) : MergedSpectrum :=
  let array_size := arraySizeOf minimum maximum binsize
  let intMasked : ℕ → Option ℚ :=
    fun i => if acc.n_peaks i < quorum then none else some (acc.intensities i)
  let intDiv : ℕ → Option ℚ := fun i => divEntry (intMasked i) (acc.n_peaks i)
  let nanMask : ℕ → Bool := fun i => (intDiv i).isSome
  let mzMasked : ℕ → Option ℚ :=
    fun i => if acc.mzs i = 0 then none else some (acc.mzs i)
  let mzDiv : ℕ → Option ℚ := fun i => divEntry (mzMasked i) (acc.n_peaks i)
  let presentBins := (List.range array_size).filter nanMask
  { mzs := presentBins.map mzDiv,
    intensities := presentBins.filterMap intDiv,
    precursor_mz := listMean acc.precursor_mzs,
    precursor_charge := c }

/-- `combine_bin_mean(peaklists, minimum, maximum, binsize,
apply_peak_quorum)`: run the member loop, assert precursor-charge
uniformity, then build the consensus spectrum; `charges[0]` raises
`IndexError` on an empty cluster. -/
def combine_bin_mean (peaklists : List PeakList) (minimum maximum binsize : ℚ)
    (apply_peak_quorum : Bool) : Except BinErr MergedSpectrum :=
  match runPeaklists minimum maximum binsize mergeInit peaklists with
  | .error e => .error e
  | .ok acc =>
    if chargesUniform acc.precursor_charges then
      match acc.precursor_charges with
      | [] => .error .indexErr
      | c :: _ =>
        .ok (assemble minimum maximum binsize
              (peakQuorumOf peaklists.length apply_peak_quorum) acc c)
    else .error .assertionErr

/-! ### The serializer `write_spectrum` and the main driver -/

/-- The character of one decimal digit. -/
def digitChar (m : ℕ) : Char :=
  match m with
  | 0 => '0' | 1 => '1' | 2 => '2' | 3 => '3' | 4 => '4'
  | 5 => '5' | 6 => '6' | 7 => '7' | 8 => '8' | _ => '9'

/-- Decimal digits of a natural number (fuel-based structural recursion;
`natDigitsAux n n` always has enough fuel). -/
def natDigitsAux : ℕ → ℕ → List Char
  | 0, n => [digitChar (n % 10)]
  | fuel + 1, n =>
    if n < 10 then [digitChar n]
    else natDigitsAux fuel (n / 10) ++ [digitChar (n % 10)]

/-- Decimal digits of a natural number. -/
def natDigits (n : ℕ) : List Char := natDigitsAux n n

/-- Python `f"{z}"` for an integer. -/
def fmtZ (z : ℤ) : List Char :=
  if z < 0 then '-' :: natDigits z.natAbs else natDigits z.natAbs

/-- Text of one consensus m/z entry; the NaN sentinel prints as `nan`. -/
def fmtOpt (fmt : ℚ → List Char) : Option ℚ → List Char
  | none => "nan".toList
  | some v => fmt v

/-- The text block written by `write_spectrum` for one consensus spectrum,
as a list of lines.  `fmt` abstracts Python's float-to-decimal repr (float
text round-trips exactly, which the theorems take as hypotheses on `fmt`).
The `np.isnan(intensity)` guard on peak lines never fires in this model
because consensus intensities are never NaN (the NaN entries were removed
by the `nan_mask` filter), so every zipped pair is written. -/
def spectrumLines (fmt : ℚ → List Char) (cid : List Char) (s : MergedSpectrum) :
    List (List Char) :=
  ("BEGIN IONS".toList ::
   ("TITLE=".toList ++ cid) ::
   ("PEPMASS=".toList ++ fmt s.precursor_mz) ::
   ("CHARGE=".toList ++ fmtZ s.precursor_charge ++ ['+']) ::
   (s.mzs.zip s.intensities).map (fun p => fmtOpt fmt p.1 ++ ' ' :: fmt p.2))
  ++ ["END IONS".toList, []]

/-- `write_spectrum`: concatenate the blocks of all consensus spectra. -/
def write_spectrum (fmt : ℚ → List Char) (spectra : List (List Char × MergedSpectrum)) :
    List (List Char) :=
  (spectra.map (fun g => spectrumLines fmt g.1 g.2)).flatten

/-- The per-cluster loop of `main`: reduce every cluster with the default
grid (`minimum=100`, `maximum=2000`, `binsize=0.02`) and the default quorum
policy, tagging each consensus with its cluster id.  The first failing
cluster aborts the whole loop. -/
def processClusters (clusters : List (List Char × List PeakList)) :
    Except BinErr (List (List Char × MergedSpectrum)) :=
  match clusters with
  | [] => .ok []
  | g :: rest =>
    match combine_bin_mean g.2 100 2000 (1 / 50) true with
    | .error e => .error e
    | .ok m =>
      match processClusters rest with
      | .error e => .error e
      | .ok ms => .ok ((g.1, m) :: ms)

/-- The tail of `main`: the output file is opened and written only after
every cluster has been reduced successfully, so a failing cluster means no
output lines at all. -/
def runMain (fmt : ℚ → List Char) (clusters : List (List Char × List PeakList)) :
    Except BinErr (List (List Char)) :=
  match processClusters clusters with
  | .error e => .error e
  | .ok specs => .ok (write_spectrum fmt specs)

/-! ### Characterizing the numpy scatter semantics

`lastVal pairs i` is the value paired with the last occurrence of index `i`
in a scatter list — the contribution that numpy's fancy-indexed `+=`
actually deposits at `i`. -/

/-- The value paired with the last occurrence of index `i`. -/
def lastVal {α : Type} (pairs : List (ℕ × α)) (i : ℕ) : Option α :=
  ((pairs.filter (fun p => decide (p.1 = i))).getLast?).map Prod.snd

/-- `lastVal` with default `0`: the net contribution of one scatter list to
position `i`. -/
def contribOf (pairs : List (ℕ × ℚ)) (i : ℕ) : ℚ :=
  match lastVal pairs i with
  | none => 0
  | some v => v

/-- Number of members whose in-range peaks touch bin `i`: the value the
`n_peaks` array actually holds after the member loop (each member's
duplicate bins collapse to a single increment). -/
def hitCount (minimum maximum binsize : ℚ) (pls : List PeakList) (i : ℕ) : ℕ :=
  pls.countP (fun pl => decide (i ∈ memberBins minimum maximum binsize pl))

/-- The intensity sum the `intensities` array actually holds at bin `i`
after the member loop: one (last) contribution per member. -/
def intSum (minimum maximum binsize : ℚ) (pls : List PeakList) (i : ℕ) : ℚ :=
  (pls.map (fun pl => contribOf (memberIntPairs minimum maximum binsize pl) i)).sum

/-- The m/z sum the `mzs` array actually holds at bin `i` after the member
loop: one (last) contribution per member. -/
def mzSum (minimum maximum binsize : ℚ) (pls : List PeakList) (i : ℕ) : ℚ :=
  (pls.map (fun pl => contribOf (memberMzPairs minimum maximum binsize pl) i)).sum

lemma lastVal_single {α : Type} (p : ℕ × α) (i : ℕ) :
    lastVal [p] i = if p.1 = i then some p.2 else none := by
  unfold lastVal
  by_cases h : p.1 = i
  · simp [List.filter_cons, h]
  · simp [List.filter_cons, h]

lemma lastVal_append {α : Type} (a b : List (ℕ × α)) (i : ℕ) :
    lastVal (a ++ b) i = (lastVal b i).or (lastVal a i) := by
  unfold lastVal
  rw [List.filter_append, List.getLast?_append]
  rcases hb : (b.filter (fun p => decide (p.1 = i))).getLast? with _ | p
  · simp [hb]
  · simp [hb]

lemma scatterAdd_apply {α : Type} [AddCommMonoid α] (a : ℕ → α)
    (pairs : List (ℕ × α)) (i : ℕ) :
    scatterAdd a pairs i =
      match lastVal pairs i with
      | none => a i
      | some v => a i + v := by
  induction pairs using List.reverseRecOn with
  | nil => rfl
  | append_singleton ps p ih =>
    have hstep : scatterAdd a (ps ++ [p]) i
        = updateAt (scatterAdd a ps) p.1 (a p.1 + p.2) i := by
      unfold scatterAdd
      rw [List.foldl_append, List.foldl_cons, List.foldl_nil]
    rw [hstep, lastVal_append, lastVal_single]
    unfold updateAt
    by_cases hip : i = p.1
    · rw [if_pos hip, if_pos hip.symm, hip]
      rfl
    · rw [if_neg hip, ih]
      have : ¬ (p.1 = i) := fun h => hip h.symm
      rw [if_neg this]
      rcases lastVal ps i with _ | v
      · rfl
      · rfl

lemma lastVal_map_pair_one (l : List ℕ) (i : ℕ) :
    lastVal (l.map (fun b => (b, (1 : ℕ)))) i =
      if i ∈ l then some 1 else none := by
  induction l using List.reverseRecOn with
  | nil => simp [lastVal]
  | append_singleton xs x ih =>
    rw [List.map_append, lastVal_append, List.map_cons, List.map_nil,
      lastVal_single, ih]
    by_cases hx : x = i
    · simp [hx]
    · have hxi : i ∈ xs ++ [x] ↔ i ∈ xs := by
        rw [List.mem_append, List.mem_singleton]
        exact or_iff_left (fun h => hx h.symm)
      by_cases hm : i ∈ xs
      · simp [hx, hm, hxi]
      · simp [hx, hm, hxi]

/-- The count array after one member's scatter: `+1` on each bin the
member touches, however many duplicate peaks land there. -/
lemma scatterAdd_count (n : ℕ → ℕ) (l : List ℕ) (i : ℕ) :
    scatterAdd n (l.map (fun b => (b, 1))) i =
      n i + (if i ∈ l then 1 else 0) := by
  rw [scatterAdd_apply, lastVal_map_pair_one]
  by_cases hm : i ∈ l
  · simp [hm]
  · simp [hm]

/-- A sum array after one member's scatter: the old value plus the
member's (last-occurrence) contribution. -/
lemma scatterAdd_contrib (a : ℕ → ℚ) (pairs : List (ℕ × ℚ)) (i : ℕ) :
    scatterAdd a pairs i = a i + contribOf pairs i := by
  rw [scatterAdd_apply]
  unfold contribOf
  rcases lastVal pairs i with _ | v
  · simp
  · rfl

/-! ### Characterizing the member loop -/

lemma addPeaklist_ok (minimum maximum binsize : ℚ) (acc : MergeAcc) (pl : PeakList)
    (pmz : ℚ) (pc : ℤ)
    (h1 : pl.precursor_mz = some pmz) (h2 : pl.precursor_charge = some pc) :
    addPeaklist minimum maximum binsize acc pl = .ok
      { intensities := scatterAdd acc.intensities (memberIntPairs minimum maximum binsize pl),
        mzs := scatterAdd acc.mzs (memberMzPairs minimum maximum binsize pl),
        n_peaks := scatterAdd acc.n_peaks
          ((memberBins minimum maximum binsize pl).map (fun b => (b, 1))),
        precursor_mzs := acc.precursor_mzs ++ [pmz],
        precursor_charges := acc.precursor_charges ++ [pc] } := by
  unfold addPeaklist
  rw [h1, h2]

lemma addPeaklist_fields (minimum maximum binsize : ℚ) (acc acc' : MergeAcc)
    (pl : PeakList)
    (h : addPeaklist minimum maximum binsize acc pl = .ok acc') :
    pl.precursor_mz.isSome ∧ pl.precursor_charge.isSome := by
  rcases h1 : pl.precursor_mz with _ | pmz
  · exfalso
    unfold addPeaklist at h
    rw [h1] at h
    rcases h2 : pl.precursor_charge with _ | pc
    · rw [h2] at h; exact absurd h (by simp)
    · rw [h2] at h; exact absurd h (by simp)
  · rcases h2 : pl.precursor_charge with _ | pc
    · exfalso
      unfold addPeaklist at h
      rw [h1, h2] at h
      exact absurd h (by simp)
    · exact ⟨by simp [h1], by simp [h2]⟩

/-- Inversion: a successful member loop implies every member record had
both precursor fields. -/
lemma runPeaklists_ok_fields (minimum maximum binsize : ℚ) (pls : List PeakList) :
    ∀ (acc acc' : MergeAcc),
      runPeaklists minimum maximum binsize acc pls = .ok acc' →
      ∀ pl ∈ pls, pl.precursor_mz.isSome ∧ pl.precursor_charge.isSome := by
  induction pls with
  | nil => simp
  | cons pl rest ih =>
    intro acc acc' hrun q hq
    rcases hstep : addPeaklist minimum maximum binsize acc pl with e | acc1
    · rw [runPeaklists, hstep] at hrun
      exact absurd hrun (by simp)
    · rw [runPeaklists, hstep] at hrun
      rcases List.mem_cons.mp hq with hq | hq
      · subst hq
        exact addPeaklist_fields minimum maximum binsize acc acc1 q hstep
      · exact ih acc1 acc' hrun q hq

/-- Forward characterization of the member loop: with all precursor fields
present it succeeds, and the resulting accumulators hold exactly the
member-collapsed counts and last-contribution sums. -/
lemma runPeaklists_ok (minimum maximum binsize : ℚ) (pls : List PeakList) :
    ∀ (acc : MergeAcc),
      (∀ pl ∈ pls, pl.precursor_mz.isSome ∧ pl.precursor_charge.isSome) →
      ∃ acc', runPeaklists minimum maximum binsize acc pls = .ok acc' ∧
        (∀ i, acc'.n_peaks i = acc.n_peaks i + hitCount minimum maximum binsize pls i) ∧
        (∀ i, acc'.intensities i = acc.intensities i + intSum minimum maximum binsize pls i) ∧
        (∀ i, acc'.mzs i = acc.mzs i + mzSum minimum maximum binsize pls i) ∧
        acc'.precursor_mzs = acc.precursor_mzs ++ pls.filterMap PeakList.precursor_mz ∧
        acc'.precursor_charges = acc.precursor_charges ++ pls.filterMap PeakList.precursor_charge := by
  induction pls with
  | nil =>
    intro acc _
    exact ⟨acc, rfl, by simp [hitCount], by simp [intSum], by simp [mzSum],
      by simp, by simp⟩
  | cons pl rest ih =>
    intro acc h
    obtain ⟨pmz, hpmz⟩ := Option.isSome_iff_exists.mp (h pl (by simp)).1
    obtain ⟨pc, hpc⟩ := Option.isSome_iff_exists.mp (h pl (by simp)).2
    obtain ⟨acc', hrun, hn, hi, hm, hp, hc⟩ :=
      ih { intensities := scatterAdd acc.intensities (memberIntPairs minimum maximum binsize pl),
           mzs := scatterAdd acc.mzs (memberMzPairs minimum maximum binsize pl),
           n_peaks := scatterAdd acc.n_peaks
             ((memberBins minimum maximum binsize pl).map (fun b => (b, 1))),
           precursor_mzs := acc.precursor_mzs ++ [pmz],
           precursor_charges := acc.precursor_charges ++ [pc] }
        (fun q hq => h q (by simp [hq]))
    refine ⟨acc', ?_, ?_, ?_, ?_, ?_, ?_⟩
    · rw [runPeaklists, addPeaklist_ok minimum maximum binsize acc pl pmz pc hpmz hpc]
      exact hrun
    · intro i
      rw [hn i]
      show scatterAdd acc.n_peaks _ i + _ = _
      rw [scatterAdd_count]
      unfold hitCount
      rw [List.countP_cons]
      by_cases him : i ∈ memberBins minimum maximum binsize pl
      · simp [him]; omega
      · simp [him]
    · intro i
      rw [hi i]
      show scatterAdd acc.intensities _ i + _ = _
      rw [scatterAdd_contrib]
      unfold intSum
      rw [List.map_cons, List.sum_cons]
      ring
    · intro i
      rw [hm i]
      show scatterAdd acc.mzs _ i + _ = _
      rw [scatterAdd_contrib]
      unfold mzSum
      rw [List.map_cons, List.sum_cons]
      ring
    · rw [hp]
      show acc.precursor_mzs ++ [pmz] ++ _ = _
      rw [List.filterMap_cons, hpmz, List.append_assoc]
      rfl
    · rw [hc]
      show acc.precursor_charges ++ [pc] ++ _ = _
      rw [List.filterMap_cons, hpc, List.append_assoc]
      rfl

/-! ### Characterizing the assembly stage and `combine_bin_mean` -/

lemma filterMap_eq_map_of_forall {α β : Type} (f : α → Option β) (g : α → β) :
    ∀ (l : List α), (∀ a ∈ l, f a = some (g a)) → l.filterMap f = l.map g
  | [], _ => rfl
  | a :: l, h => by
    rw [List.filterMap_cons, h a (by simp), List.map_cons,
      filterMap_eq_map_of_forall f g l (fun b hb => h b (by simp [hb]))]

/-- The quorum is always at least `1`. -/
lemma peakQuorumOf_pos (n : ℕ) (apq : Bool) : 1 ≤ peakQuorumOf n apq := by
  unfold peakQuorumOf
  cases apq
  · simp
  · simp

/-- `int(n * 0.25) + 1 = n / 4 + 1` (the truncation of a nonnegative
quotient is its floor). -/
lemma peakQuorumOf_true (n : ℕ) : peakQuorumOf n true = n / 4 + 1 := by
  unfold peakQuorumOf pyTrunc
  have h0 : ¬ ((n : ℚ) * (1 / 4) < 0) := not_lt.mpr (by positivity)
  rw [if_pos rfl, if_neg h0]
  have h1 : (n : ℚ) * (1 / 4) = ((n : ℕ) : ℚ) / ((4 : ℕ) : ℚ) := by push_cast; ring
  rw [h1, Rat.floor_natCast_div_natCast]
  omega

lemma peakQuorumOf_false (n : ℕ) : peakQuorumOf n false = 1 := rfl

/-- The presence mask drawn from the intensity array coincides with the
quorum test `q ≤ n_peaks[i]` (the division can only return NaN on a zero
count, which the quorum `q ≥ 1` already excludes). -/
lemma intDiv_isSome (q : ℕ) (acc : MergeAcc) (hq : 1 ≤ q) (i : ℕ) :
    (divEntry (if acc.n_peaks i < q then none else some (acc.intensities i))
        (acc.n_peaks i)).isSome = decide (q ≤ acc.n_peaks i) := by
  by_cases hlt : acc.n_peaks i < q
  · rw [if_pos hlt]
    have : ¬ (q ≤ acc.n_peaks i) := by omega
    simp [divEntry, this]
  · rw [if_neg hlt]
    have hle : q ≤ acc.n_peaks i := by omega
    have hne : ¬ (acc.n_peaks i = 0) := by omega
    simp [divEntry, hne, hle]

lemma intDiv_eq_of_le (q : ℕ) (acc : MergeAcc) (i : ℕ) (hq : 1 ≤ q)
    (hle : q ≤ acc.n_peaks i) :
    divEntry (if acc.n_peaks i < q then none else some (acc.intensities i))
        (acc.n_peaks i)
      = some (acc.intensities i / (acc.n_peaks i : ℚ)) := by
  have hlt : ¬ (acc.n_peaks i < q) := by omega
  have hne : ¬ (acc.n_peaks i = 0) := by omega
  rw [if_neg hlt]
  simp [divEntry, hne]

/-- The assembled output in closed form: both arrays run over the same
quorum-filtered ascending list of bins. -/
lemma assemble_eq (minimum maximum binsize : ℚ) (q : ℕ) (acc : MergeAcc)
    (c : ℤ) (hq : 1 ≤ q) :
    assemble minimum maximum binsize q acc c =
      { mzs := ((List.range (arraySizeOf minimum maximum binsize)).filter
            (fun i => decide (q ≤ acc.n_peaks i))).map
            (fun i => divEntry (if acc.mzs i = 0 then none else some (acc.mzs i))
              (acc.n_peaks i)),
        intensities := ((List.range (arraySizeOf minimum maximum binsize)).filter
            (fun i => decide (q ≤ acc.n_peaks i))).map
            (fun i => acc.intensities i / (acc.n_peaks i : ℚ)),
        precursor_mz := listMean acc.precursor_mzs,
        precursor_charge := c } := by
  simp only [assemble]
  have hmask : (fun i => (divEntry
        (if acc.n_peaks i < q then none else some (acc.intensities i))
        (acc.n_peaks i)).isSome)
      = (fun i => decide (q ≤ acc.n_peaks i)) := by
    funext i
    exact intDiv_isSome q acc hq i
  rw [hmask]
  have hint : ((List.range (arraySizeOf minimum maximum binsize)).filter
        (fun i => decide (q ≤ acc.n_peaks i))).filterMap
        (fun i => divEntry
          (if acc.n_peaks i < q then none else some (acc.intensities i))
          (acc.n_peaks i))
      = ((List.range (arraySizeOf minimum maximum binsize)).filter
        (fun i => decide (q ≤ acc.n_peaks i))).map
        (fun i => acc.intensities i / (acc.n_peaks i : ℚ)) := by
    apply filterMap_eq_map_of_forall
    intro a ha
    have := List.of_mem_filter ha
    exact intDiv_eq_of_le q acc a hq (by simpa using this)
  rw [hint]

/-- One-step reduction of `combine_bin_mean` once the member loop result is
known. -/
lemma combine_eq_of_run (pls : List PeakList) (minimum maximum binsize : ℚ)
    (apq : Bool) (acc : MergeAcc)
    (h : runPeaklists minimum maximum binsize mergeInit pls = .ok acc) :
    combine_bin_mean pls minimum maximum binsize apq =
      if chargesUniform acc.precursor_charges then
        match acc.precursor_charges with
        | [] => .error .indexErr
        | c :: _ =>
          .ok (assemble minimum maximum binsize
                (peakQuorumOf pls.length apq) acc c)
      else .error .assertionErr := by
  unfold combine_bin_mean
  rw [h]

/-- Inversion of a successful `combine_bin_mean`: the member fields were
present, the accumulators hold the characterized sums and counts, the
charges were uniform and nonempty, and the result is the assembly. -/
lemma combine_ok_elim (pls : List PeakList) (minimum maximum binsize : ℚ)
    (apq : Bool) (m : MergedSpectrum)
    (h : combine_bin_mean pls minimum maximum binsize apq = .ok m) :
    ∃ acc c cs,
      (∀ pl ∈ pls, pl.precursor_mz.isSome ∧ pl.precursor_charge.isSome) ∧
      (∀ i, acc.n_peaks i = hitCount minimum maximum binsize pls i) ∧
      (∀ i, acc.intensities i = intSum minimum maximum binsize pls i) ∧
      (∀ i, acc.mzs i = mzSum minimum maximum binsize pls i) ∧
      acc.precursor_mzs = pls.filterMap PeakList.precursor_mz ∧
      acc.precursor_charges = c :: cs ∧
      pls.filterMap PeakList.precursor_charge = c :: cs ∧
      chargesUniform (c :: cs) = true ∧
      m = assemble minimum maximum binsize (peakQuorumOf pls.length apq) acc c := by
  rcases hrun : runPeaklists minimum maximum binsize mergeInit pls with e | acc
  · rw [combine_bin_mean, hrun] at h
    exact absurd h (by simp)
  · have hfields := runPeaklists_ok_fields minimum maximum binsize pls mergeInit acc hrun
    obtain ⟨acc2, hrun2, hn, hi, hm2, hp, hc⟩ :=
      runPeaklists_ok minimum maximum binsize pls mergeInit hfields
    rw [hrun] at hrun2
    have hacc : acc2 = acc := by
      injection hrun2 with h'
      exact h'.symm
    rw [hacc] at hn hi hm2 hp hc
    rw [combine_eq_of_run pls minimum maximum binsize apq acc hrun] at h
    rcases hcu : chargesUniform acc.precursor_charges with _ | _
    · rw [hcu] at h
      exact absurd h (by simp)
    · rw [hcu] at h
      rcases hcs : acc.precursor_charges with _ | ⟨c, cs⟩
      · rw [hcs] at h
        exact absurd h (by simp)
      · rw [hcs] at h
        simp only [if_true, Except.ok.injEq] at h
        refine ⟨acc, c, cs, hfields, ?_, ?_, ?_, ?_, hcs, ?_, ?_, h.symm⟩
        · intro i; rw [hn i]; simp [mergeInit]
        · intro i; rw [hi i]; simp [mergeInit]
        · intro i; rw [hm2 i]; simp [mergeInit]
        · rw [hp]; simp [mergeInit]
        · rw [← hcs, hc]; simp [mergeInit]
        · rw [← hcs, ← hcu]

/-- With all precursor charges equal to `c` the filterMap is a replicate. -/
lemma filterMap_charge_replicate (c : ℤ) :
    ∀ (pls : List PeakList), (∀ pl ∈ pls, pl.precursor_charge = some c) →
      pls.filterMap PeakList.precursor_charge = List.replicate pls.length c
  | [], _ => rfl
  | pl :: rest, h => by
    rw [List.filterMap_cons, h pl (by simp), List.length_cons, List.replicate_succ,
      filterMap_charge_replicate c rest (fun q hq => h q (by simp [hq]))]

lemma chargesUniform_replicate (n : ℕ) (c : ℤ) :
    chargesUniform (List.replicate n c) = true := by
  unfold chargesUniform
  rw [List.all_eq_true]
  intro x hx
  rcases n with _ | n
  · simp at hx
  · rw [List.mem_replicate] at hx
    rw [hx.2, List.replicate_succ]
    simp

/-- A cluster whose members all carry precursor fields and agree on the
charge reduces successfully, and the consensus charge is that value. -/
lemma combine_ok_of_uniform (pls : List PeakList) (minimum maximum binsize : ℚ)
    (apq : Bool) (c : ℤ) (hne : pls ≠ [])
    (hmz : ∀ pl ∈ pls, pl.precursor_mz.isSome)
    (hall : ∀ pl ∈ pls, pl.precursor_charge = some c) :
    ∃ m, combine_bin_mean pls minimum maximum binsize apq = .ok m ∧
      m.precursor_charge = c := by
  have hfields : ∀ pl ∈ pls, pl.precursor_mz.isSome ∧ pl.precursor_charge.isSome :=
    fun pl hpl => ⟨hmz pl hpl, by rw [hall pl hpl]; rfl⟩
  obtain ⟨acc, hrun, hn, hi, hm2, hp, hc⟩ :=
    runPeaklists_ok minimum maximum binsize pls mergeInit hfields
  have hrep : acc.precursor_charges = List.replicate pls.length c := by
    rw [hc, filterMap_charge_replicate c pls hall]
    simp [mergeInit]
  rcases hlen : pls.length with _ | k
  · exact absurd (List.length_eq_zero.mp hlen) hne
  · have hcs : acc.precursor_charges = c :: List.replicate k c := by
      rw [hrep, hlen, List.replicate_succ]
    refine ⟨assemble minimum maximum binsize (peakQuorumOf pls.length apq) acc c,
      ?_, rfl⟩
    rw [combine_eq_of_run pls minimum maximum binsize apq acc hrun, hcs]
    have huni := chargesUniform_replicate (k + 1) c
    rw [List.replicate_succ] at huni
    rw [huni]
    simp

/-- A cluster with non-uniform precursor charges (fields present) fails the
assert. -/
lemma combine_error_of_nonuniform (pls : List PeakList)
    (minimum maximum binsize : ℚ) (apq : Bool)
    (hfields : ∀ pl ∈ pls, pl.precursor_mz.isSome ∧ pl.precursor_charge.isSome)
    (hcu : chargesUniform (pls.filterMap PeakList.precursor_charge) = false) :
    combine_bin_mean pls minimum maximum binsize apq = .error .assertionErr := by
  obtain ⟨acc, hrun, hn, hi, hm2, hp, hc⟩ :=
    runPeaklists_ok minimum maximum binsize pls mergeInit hfields
  have hcc : acc.precursor_charges = pls.filterMap PeakList.precursor_charge := by
    rw [hc]; simp [mergeInit]
  rw [combine_eq_of_run pls minimum maximum binsize apq acc hrun, hcc, hcu]
  simp

lemma assemble_intensities (minimum maximum binsize : ℚ) (q : ℕ) (acc : MergeAcc)
    (c : ℤ) (hq : 1 ≤ q) :
    (assemble minimum maximum binsize q acc c).intensities =
      ((List.range (arraySizeOf minimum maximum binsize)).filter
          (fun i => decide (q ≤ acc.n_peaks i))).map
          (fun i => acc.intensities i / (acc.n_peaks i : ℚ)) := by
  rw [assemble_eq minimum maximum binsize q acc c hq]

lemma assemble_mzs (minimum maximum binsize : ℚ) (q : ℕ) (acc : MergeAcc)
    (c : ℤ) (hq : 1 ≤ q) :
    (assemble minimum maximum binsize q acc c).mzs =
      ((List.range (arraySizeOf minimum maximum binsize)).filter
          (fun i => decide (q ≤ acc.n_peaks i))).map
          (fun i => divEntry (if acc.mzs i = 0 then none else some (acc.mzs i))
            (acc.n_peaks i)) := by
  rw [assemble_eq minimum maximum binsize q acc c hq]

lemma filter_range_singleton (p : ℕ → Bool) (k : ℕ) :
    ∀ (n : ℕ), k < n → p k = true → (∀ i, p i = true → i = k) →
      (List.range n).filter p = [k] := by
  intro n
  induction n with
  | zero => omega
  | succ n ih =>
    intro hk hp h
    rw [List.range_succ, List.filter_append]
    by_cases hkn : k = n
    · subst hkn
      have h1 : (List.range k).filter p = [] := by
        rw [List.filter_eq_nil_iff]
        intro a ha hpa
        have := h a hpa
        rw [List.mem_range] at ha
        omega
      rw [h1]
      simp [hp]
    · have hk' : k < n := by omega
      rw [ih hk' hp h]
      have h2 : p n = false := by
        rcases hb : p n with _ | _
        · rfl
        · exact absurd (h n hb).symm hkn
      simp [h2]

/-! ### Claim theorems -/

/-- Bounds on the in-range pairs: the boolean mask keeps exactly the
half-open range `minimum ≤ mass < maximum`. -/
lemma inRangePairs_bounds (minimum maximum : ℚ) (pl : PeakList) (p : ℚ × ℚ)
    (hp : p ∈ inRangePairs minimum maximum pl) :
    minimum ≤ p.1 ∧ p.1 < maximum := by
  unfold inRangePairs at hp
  have := List.of_mem_filter hp
  simpa using this

lemma exists_mem_zip_of_mem_left {α β : Type} {i : α} :
    ∀ {l1 : List α} {l2 : List β}, i ∈ l1 → l1.length = l2.length →
      ∃ v, (i, v) ∈ l1.zip l2 := by
  intro l1
  induction l1 with
  | nil => intro l2 h _; simp at h
  | cons a t ih =>
    intro l2 h hlen
    rcases l2 with _ | ⟨b, t2⟩
    · simp at hlen
    · rcases List.mem_cons.mp h with h | h
      · exact ⟨b, by rw [h]; simp [List.zip_cons_cons]⟩
      · obtain ⟨v, hv⟩ := ih h (by simpa using hlen)
        exact ⟨v, by simp [List.zip_cons_cons, hv]⟩

/-- A bin hit by a member receives the mass of one of that member's
in-range peaks. -/
lemma contribOf_mem_of_hit (minimum maximum binsize : ℚ) (pl : PeakList) (i : ℕ)
    (h : i ∈ memberBins minimum maximum binsize pl) :
    ∃ p ∈ inRangePairs minimum maximum pl,
      contribOf (memberMzPairs minimum maximum binsize pl) i = p.1 := by
  have hlen : (memberBins minimum maximum binsize pl).length
      = ((inRangePairs minimum maximum pl).map Prod.fst).length := by
    unfold memberBins
    rw [List.length_map, List.length_map]
  obtain ⟨v, hv⟩ := exists_mem_zip_of_mem_left h hlen
  have hmemf : (i, v) ∈ (memberMzPairs minimum maximum binsize pl).filter
      (fun p => decide (p.1 = i)) := by
    apply List.mem_filter.mpr
    exact ⟨hv, by simp⟩
  rcases hlast : ((memberMzPairs minimum maximum binsize pl).filter
      (fun p => decide (p.1 = i))).getLast? with _ | q
  · rw [List.getLast?_eq_none_iff] at hlast
    rw [hlast] at hmemf
    simp at hmemf
  · have hqmem := List.mem_of_getLast?_eq_some hlast
    have hqzip := (List.mem_filter.mp hqmem).1
    have hq2 := (List.of_mem_zip hqzip).2
    obtain ⟨p, hpmem, hp1⟩ := List.mem_map.mp hq2
    refine ⟨p, hpmem, ?_⟩
    unfold contribOf lastVal
    rw [hlast]
    simp [hp1]

/-- Every contribution to the m/z sums is zero or an in-range mass. -/
lemma contribOf_zero_or_mem (minimum maximum binsize : ℚ) (pl : PeakList) (i : ℕ) :
    contribOf (memberMzPairs minimum maximum binsize pl) i = 0 ∨
      ∃ p ∈ inRangePairs minimum maximum pl,
        contribOf (memberMzPairs minimum maximum binsize pl) i = p.1 := by
  rcases hlast : ((memberMzPairs minimum maximum binsize pl).filter
      (fun p => decide (p.1 = i))).getLast? with _ | q
  · left
    unfold contribOf lastVal
    rw [hlast]
    rfl
  · right
    have hqmem := List.mem_of_getLast?_eq_some hlast
    have hqzip := (List.mem_filter.mp hqmem).1
    have hq2 := (List.of_mem_zip hqzip).2
    obtain ⟨p, hpmem, hp1⟩ := List.mem_map.mp hq2
    refine ⟨p, hpmem, ?_⟩
    unfold contribOf lastVal
    rw [hlast]
    simp [hp1]

/-- With a positive grid minimum, a bin whose hit-count is positive has a
positive m/z sum — the `mzs == 0` NaN sentinel cannot fire on a surviving
bin. -/
lemma mzSum_pos (minimum maximum binsize : ℚ) (pls : List PeakList) (i : ℕ)
    (hmin : 0 < minimum) (hpos : 0 < hitCount minimum maximum binsize pls i) :
    0 < mzSum minimum maximum binsize pls i := by
  unfold hitCount at hpos
  obtain ⟨pl0, hpl0, hb0⟩ := List.countP_pos_iff.mp hpos
  have hhit0 : i ∈ memberBins minimum maximum binsize pl0 := of_decide_eq_true hb0
  obtain ⟨p0, hp0mem, hc0⟩ :=
    contribOf_mem_of_hit minimum maximum binsize pl0 i hhit0
  have hnn : ∀ x ∈ pls.map
      (fun pl => contribOf (memberMzPairs minimum maximum binsize pl) i), 0 ≤ x := by
    intro x hx
    obtain ⟨pl, hpl, hc⟩ := List.mem_map.mp hx
    rcases contribOf_zero_or_mem minimum maximum binsize pl i with h0 | ⟨p, hpmem, hcp⟩
    · rw [← hc, h0]
    · rw [← hc, hcp]
      have := (inRangePairs_bounds minimum maximum pl p hpmem).1
      linarith
  have hmem : contribOf (memberMzPairs minimum maximum binsize pl0) i
      ∈ pls.map (fun pl => contribOf (memberMzPairs minimum maximum binsize pl) i) :=
    List.mem_map_of_mem _ hpl0
  have hle := List.single_le_sum hnn _ hmem
  have hp1 : minimum ≤ p0.1 :=
    (inRangePairs_bounds minimum maximum pl0 p0 hp0mem).1
  unfold mzSum
  calc (0 : ℚ) < minimum := hmin
    _ ≤ p0.1 := hp1
    _ = contribOf (memberMzPairs minimum maximum binsize pl0) i := hc0.symm
    _ ≤ _ := hle

/-- A member with two in-range peaks in the same bin: masses `100` and
`100.01` both land in bin `0` of the default grid. -/
def c1CounterMember : PeakList :=
  ⟨"c".toList, "u".toList, [100, 100 + 1 / 100], [1, 2], some 600, some 2⟩

/-- C1 counterexample: the claim predicts that after the loop bin `0` has
hit-count `2`, intensity-sum `3 = 1 + 2` and mass-sum `200.01`; the numpy
fancy-indexed `+=` actually leaves hit-count `1`, intensity-sum `2` (the
last duplicate wins) and mass-sum `100.01`. -/
theorem claim1_counterexample :
    (addPeaklist 100 2000 (1 / 50) mergeInit c1CounterMember).map
        (fun a => (a.n_peaks 0, a.intensities 0, a.mzs 0))
      = .ok (1, 2, 100 + 1 / 100) := by decide

/-- C1 (amended): after the member loop, a bin's hit-count equals the
number of MEMBERS with at least one in-range peak in that bin (duplicate
peaks of one member collapse), and each sum receives, per member, the
value of that member's LAST in-range peak mapping to the bin; only pairs
with `minimum ≤ mass < maximum` take part, and for an in-range mass with a
positive bin width the bin index is `⌊(mass − minimum)/binwidth⌋`. -/
theorem claim1_amended (minimum maximum binsize : ℚ) (pls : List PeakList)
    (h : ∀ pl ∈ pls, pl.precursor_mz.isSome ∧ pl.precursor_charge.isSome) :
    ∃ acc, runPeaklists minimum maximum binsize mergeInit pls = .ok acc ∧
      (∀ i, acc.n_peaks i = hitCount minimum maximum binsize pls i) ∧
      (∀ i, acc.intensities i = intSum minimum maximum binsize pls i) ∧
      (∀ i, acc.mzs i = mzSum minimum maximum binsize pls i) ∧
      (∀ pl : PeakList, ∀ p ∈ inRangePairs minimum maximum pl,
        minimum ≤ p.1 ∧ p.1 < maximum) ∧
      (∀ mz : ℚ, minimum ≤ mz → 0 < binsize →
        (binIndex minimum binsize mz : ℤ) = ⌊(mz - minimum) / binsize⌋) := by
  obtain ⟨acc, hrun, hn, hi, hm2, _, _⟩ :=
    runPeaklists_ok minimum maximum binsize pls mergeInit h
  refine ⟨acc, hrun, ?_, ?_, ?_, ?_, ?_⟩
  · intro i; rw [hn i]; simp [mergeInit]
  · intro i; rw [hi i]; simp [mergeInit]
  · intro i; rw [hm2 i]; simp [mergeInit]
  · intro pl p hp
    unfold inRangePairs at hp
    have := List.of_mem_filter hp
    simpa using this
  · intro mz hle hbs
    unfold binIndex pyTrunc
    have hnn : (0 : ℚ) ≤ (mz - minimum) / binsize := by
      apply div_nonneg
      · linarith
      · linarith
    rw [if_neg (not_lt.mpr hnn)]
    exact Int.toNat_of_nonneg (Int.le_floor.mpr (by simpa using hnn))

/-- Witness for C1 (amended) at the concrete one-member cluster. -/
theorem claim1_witness :
    ∃ acc, runPeaklists 100 2000 (1 / 50) mergeInit [c1CounterMember] = .ok acc ∧
      (∀ i, acc.n_peaks i = hitCount 100 2000 (1 / 50) [c1CounterMember] i) ∧
      (∀ i, acc.intensities i = intSum 100 2000 (1 / 50) [c1CounterMember] i) ∧
      (∀ i, acc.mzs i = mzSum 100 2000 (1 / 50) [c1CounterMember] i) ∧
      (∀ pl : PeakList, ∀ p ∈ inRangePairs 100 2000 pl, 100 ≤ p.1 ∧ p.1 < 2000) ∧
      (∀ mz : ℚ, 100 ≤ mz → 0 < (1 / 50 : ℚ) →
        (binIndex 100 (1 / 50) mz : ℤ) = ⌊(mz - 100) / (1 / 50)⌋) :=
  claim1_amended 100 2000 (1 / 50) [c1CounterMember] (by decide)

/-- C4 counterexample: on the empty cluster the engine raises `IndexError`
at `charges[0]` — there is no `EmptyClusterError` anywhere in the code, and
the quorum has already been computed by then. -/
theorem claim4_counterexample :
    combine_bin_mean [] 100 2000 (1 / 50) true = .error .indexErr := rfl

/-- C4 (amended): for the empty cluster, `combine_bin_mean` fails — with
the `IndexError` of `charges[0]` rather than a dedicated
`EmptyClusterError`, and only after the quorum value was computed — and no
consensus spectrum is returned. -/
theorem claim4_amended (minimum maximum binsize : ℚ) (apq : Bool) :
    combine_bin_mean [] minimum maximum binsize apq = .error .indexErr := rfl

/-- Two members with differing precursor charges falsify the uniformity
check. -/
lemma chargesUniform_false_of_ne (pls : List PeakList)
    (hfields : ∀ pl ∈ pls, pl.precursor_mz.isSome ∧ pl.precursor_charge.isSome)
    (pl1 pl2 : PeakList) (hm1 : pl1 ∈ pls) (hm2 : pl2 ∈ pls)
    (hne : pl1.precursor_charge ≠ pl2.precursor_charge) :
    chargesUniform (pls.filterMap PeakList.precursor_charge) = false := by
  rcases hb : chargesUniform (pls.filterMap PeakList.precursor_charge) with _ | _
  · rfl
  · exfalso
    unfold chargesUniform at hb
    rw [List.all_eq_true] at hb
    obtain ⟨c1, hc1⟩ := Option.isSome_iff_exists.mp (hfields pl1 hm1).2
    obtain ⟨c2, hc2⟩ := Option.isSome_iff_exists.mp (hfields pl2 hm2).2
    have h1 : c1 ∈ pls.filterMap PeakList.precursor_charge :=
      List.mem_filterMap.mpr ⟨pl1, hm1, hc1⟩
    have h2 : c2 ∈ pls.filterMap PeakList.precursor_charge :=
      List.mem_filterMap.mpr ⟨pl2, hm2, hc2⟩
    have e1 := eq_of_beq (hb c1 h1)
    have e2 := eq_of_beq (hb c2 h2)
    exact hne (by rw [hc1, hc2, e1, e2])

/-- C5: a cluster (all records carrying their precursor fields) with two
members of differing precursor charge fails the consistency assert and
yields no consensus; a cluster whose charges all equal `c` succeeds, and
the consensus precursor charge is `c`. -/
theorem claim5 (pls : List PeakList) (minimum maximum binsize : ℚ) (apq : Bool)
    (hfields : ∀ pl ∈ pls, pl.precursor_mz.isSome ∧ pl.precursor_charge.isSome) :
    (∀ pl1, pl1 ∈ pls → ∀ pl2, pl2 ∈ pls →
      pl1.precursor_charge ≠ pl2.precursor_charge →
      combine_bin_mean pls minimum maximum binsize apq = .error .assertionErr) ∧
    (∀ c : ℤ, pls ≠ [] → (∀ pl ∈ pls, pl.precursor_charge = some c) →
      ∃ m, combine_bin_mean pls minimum maximum binsize apq = .ok m ∧
        m.precursor_charge = c) := by
  constructor
  · intro pl1 hm1 pl2 hm2 hne
    exact combine_error_of_nonuniform pls minimum maximum binsize apq hfields
      (chargesUniform_false_of_ne pls hfields pl1 pl2 hm1 hm2 hne)
  · intro c hne hall
    exact combine_ok_of_uniform pls minimum maximum binsize apq c hne
      (fun pl hpl => (hfields pl hpl).1) hall

/-- Witness for C5 at a mismatched two-member cluster and at a uniform
two-member cluster. -/
theorem claim5_witness :
    combine_bin_mean
        [⟨"c".toList, "u".toList, [], [], some 1, some 1⟩,
         ⟨"c".toList, "v".toList, [], [], some 1, some 2⟩] 100 2000 (1 / 50) true
      = .error .assertionErr ∧
    (∃ m, combine_bin_mean
        [⟨"c".toList, "u".toList, [], [], some 1, some 3⟩,
         ⟨"c".toList, "v".toList, [], [], some 1, some 3⟩] 100 2000 (1 / 50) true
      = .ok m ∧ m.precursor_charge = 3) :=
  ⟨(claim5 _ 100 2000 (1 / 50) true (by decide)).1
      ⟨"c".toList, "u".toList, [], [], some 1, some 1⟩ (by decide)
      ⟨"c".toList, "v".toList, [], [], some 1, some 2⟩ (by decide) (by decide),
   (claim5 _ 100 2000 (1 / 50) true (by decide)).2 3 (by decide) (by decide)⟩

/-- C3: for every successful cluster reduction, the quorum is
`⌊0.25·N⌋ + 1` when the policy is enabled and `1` otherwise, and the
output intensity array runs over exactly the bins whose hit-count reaches
the quorum (ascending), carrying their mean intensities — so a bin with
hit-count equal to the quorum is included and one below it is absent. -/
theorem claim3 (pls : List PeakList) (minimum maximum binsize : ℚ) (apq : Bool)
    (m : MergedSpectrum)
    (hok : combine_bin_mean pls minimum maximum binsize apq = .ok m) :
    peakQuorumOf pls.length apq = (if apq then pls.length / 4 + 1 else 1) ∧
    m.intensities = ((List.range (arraySizeOf minimum maximum binsize)).filter
        (fun i => decide (peakQuorumOf pls.length apq ≤
          hitCount minimum maximum binsize pls i))).map
        (fun i => intSum minimum maximum binsize pls i /
          (hitCount minimum maximum binsize pls i : ℚ)) := by
  obtain ⟨acc, c, cs, hf, hn, hi, hm2, hp, hcs, hfm, hcu, hmeq⟩ :=
    combine_ok_elim pls minimum maximum binsize apq m hok
  constructor
  · cases apq
    · rw [peakQuorumOf_false]; rfl
    · rw [peakQuorumOf_true]; rfl
  · rw [hmeq, assemble_intensities minimum maximum binsize _ acc c
      (peakQuorumOf_pos pls.length apq)]
    have e1 : (fun i => decide (peakQuorumOf pls.length apq ≤ acc.n_peaks i))
        = (fun i => decide (peakQuorumOf pls.length apq ≤
            hitCount minimum maximum binsize pls i)) := by
      funext i; rw [hn i]
    have e2 : (fun i => acc.intensities i / (acc.n_peaks i : ℚ))
        = (fun i => intSum minimum maximum binsize pls i /
            (hitCount minimum maximum binsize pls i : ℚ)) := by
      funext i; rw [hi i, hn i]
    rw [e1, e2]

/-- C6: every successful reduction (over a grid with positive minimum, as
the defaults are) yields parallel mass/intensity arrays drawn from one
shared quorum mask: the same ascending list of bins indexes both, their
lengths agree and are bounded by the total bin count, and every mass entry
is a real value (`some`), never the NaN placeholder. -/
theorem claim6 (pls : List PeakList) (minimum maximum binsize : ℚ) (apq : Bool)
    (m : MergedSpectrum) (hmin : 0 < minimum)
    (hok : combine_bin_mean pls minimum maximum binsize apq = .ok m) :
    m.mzs.length = m.intensities.length ∧
    m.intensities.length ≤ arraySizeOf minimum maximum binsize ∧
    (∀ e ∈ m.mzs, e.isSome = true) ∧
    ∃ bins : List ℕ,
      bins = (List.range (arraySizeOf minimum maximum binsize)).filter
        (fun i => decide (peakQuorumOf pls.length apq ≤
          hitCount minimum maximum binsize pls i)) ∧
      List.Pairwise (· < ·) bins ∧
      (∀ i ∈ bins, peakQuorumOf pls.length apq ≤
        hitCount minimum maximum binsize pls i) ∧
      m.mzs = bins.map (fun i => some (mzSum minimum maximum binsize pls i /
        (hitCount minimum maximum binsize pls i : ℚ))) ∧
      m.intensities = bins.map (fun i => intSum minimum maximum binsize pls i /
        (hitCount minimum maximum binsize pls i : ℚ)) := by
  obtain ⟨acc, c, cs, hf, hn, hi, hm2, hp, hcs, hfm, hcu, hmeq⟩ :=
    combine_ok_elim pls minimum maximum binsize apq m hok
  have hq := peakQuorumOf_pos pls.length apq
  set q := peakQuorumOf pls.length apq with hqdef
  set bins := (List.range (arraySizeOf minimum maximum binsize)).filter
    (fun i => decide (q ≤ hitCount minimum maximum binsize pls i)) with hbins
  have hbinmem : ∀ i ∈ bins, q ≤ hitCount minimum maximum binsize pls i := by
    intro i hi2
    have := List.of_mem_filter hi2
    simpa using this
  have e1 : (fun i => decide (q ≤ acc.n_peaks i))
      = (fun i => decide (q ≤ hitCount minimum maximum binsize pls i)) := by
    funext i; rw [hn i]
  have hmzs : m.mzs = bins.map (fun i => some (mzSum minimum maximum binsize pls i /
      (hitCount minimum maximum binsize pls i : ℚ))) := by
    rw [hmeq, assemble_mzs minimum maximum binsize q acc c hq, e1, ← hbins]
    apply List.map_congr_left
    intro i hi2
    have hle := hbinmem i hi2
    have hpos : 0 < mzSum minimum maximum binsize pls i :=
      mzSum_pos minimum maximum binsize pls i hmin (by omega)
    have hne : ¬ (mzSum minimum maximum binsize pls i = 0) := ne_of_gt hpos
    have hcne : ¬ (hitCount minimum maximum binsize pls i = 0) := by omega
    rw [hm2 i, hn i, if_neg hne]
    simp [divEntry, hcne]
  have hints : m.intensities = bins.map
      (fun i => intSum minimum maximum binsize pls i /
        (hitCount minimum maximum binsize pls i : ℚ)) := by
    rw [hmeq, assemble_intensities minimum maximum binsize q acc c hq, e1, ← hbins]
    apply List.map_congr_left
    intro i hi2
    rw [hi i, hn i]
  refine ⟨?_, ?_, ?_, bins, rfl, ?_, hbinmem, hmzs, hints⟩
  · rw [hmzs, hints, List.length_map, List.length_map]
  · rw [hints, List.length_map, hbins]
    calc ((List.range (arraySizeOf minimum maximum binsize)).filter
        (fun i => decide (q ≤ hitCount minimum maximum binsize pls i))).length
        ≤ (List.range (arraySizeOf minimum maximum binsize)).length :=
          List.length_filter_le _ _
      _ = arraySizeOf minimum maximum binsize := List.length_range _
  · intro e he
    rw [hmzs] at he
    obtain ⟨i, _, hei⟩ := List.mem_map.mp he
    rw [← hei]
    rfl
  · rw [hbins]
    exact List.Pairwise.filter _ (List.sorted_lt_range _)

/-- Witness for C6 at a concrete one-member cluster on a small positive
grid. -/
theorem claim6_witness :
    (MergedSpectrum.mk [some 2] [5] 10 1).mzs.length =
      (MergedSpectrum.mk [some 2] [5] 10 1).intensities.length ∧
    (MergedSpectrum.mk [some 2] [5] 10 1).intensities.length ≤ arraySizeOf 1 3 1 ∧
    (∀ e ∈ (MergedSpectrum.mk [some 2] [5] 10 1).mzs, e.isSome = true) ∧
    ∃ bins : List ℕ,
      bins = (List.range (arraySizeOf 1 3 1)).filter
        (fun i => decide (peakQuorumOf
          ([⟨"c".toList, "u".toList, [2], [5], some 10, some 1⟩] :
            List PeakList).length true ≤
          hitCount 1 3 1 [⟨"c".toList, "u".toList, [2], [5], some 10, some 1⟩] i)) ∧
      List.Pairwise (· < ·) bins ∧
      (∀ i ∈ bins, peakQuorumOf
        ([⟨"c".toList, "u".toList, [2], [5], some 10, some 1⟩] :
          List PeakList).length true ≤
        hitCount 1 3 1 [⟨"c".toList, "u".toList, [2], [5], some 10, some 1⟩] i) ∧
      (MergedSpectrum.mk [some 2] [5] 10 1).mzs = bins.map
        (fun i => some (mzSum 1 3 1 [⟨"c".toList, "u".toList, [2], [5], some 10, some 1⟩] i /
          (hitCount 1 3 1 [⟨"c".toList, "u".toList, [2], [5], some 10, some 1⟩] i : ℚ))) ∧
      (MergedSpectrum.mk [some 2] [5] 10 1).intensities = bins.map
        (fun i => intSum 1 3 1 [⟨"c".toList, "u".toList, [2], [5], some 10, some 1⟩] i /
          (hitCount 1 3 1 [⟨"c".toList, "u".toList, [2], [5], some 10, some 1⟩] i : ℚ)) :=
  claim6 [⟨"c".toList, "u".toList, [2], [5], some 10, some 1⟩] 1 3 1 true
    ⟨[some 2], [5], 10, 1⟩ (by norm_num) (by decide)

/-- A failing cluster anywhere in the run aborts the whole per-cluster
loop. -/
lemma processClusters_error (clusters : List (List Char × List PeakList))
    (cid : List Char) (pls : List PeakList) (hmem : (cid, pls) ∈ clusters)
    (e : BinErr)
    (hfail : combine_bin_mean pls 100 2000 (1 / 50) true = .error e) :
    ∃ e', processClusters clusters = .error e' := by
  induction clusters with
  | nil => simp at hmem
  | cons g rest ih =>
    rcases hcomb : combine_bin_mean g.2 100 2000 (1 / 50) true with e0 | m
    · exact ⟨e0, by rw [processClusters, hcomb]⟩
    · rcases List.mem_cons.mp hmem with hg | hg
      · exfalso
        rw [← hg] at hcomb
        rw [hfail] at hcomb
        exact absurd hcomb (by simp)
      · obtain ⟨e', he'⟩ := ih hg
        exact ⟨e', by rw [processClusters, hcomb, he']⟩

/-- The four members of the C7 worked scenario: one peak each at mass
`500.00`, intensities `10/20/30/40`, charge `2`, precursor masses
`600.1/600.2/600.3/600.4`. -/
def c7a : PeakList := ⟨"42".toList, "ua".toList, [500], [10], some (6001 / 10), some 2⟩

def c7b : PeakList := ⟨"42".toList, "ub".toList, [500], [20], some (6002 / 10), some 2⟩

def c7c : PeakList := ⟨"42".toList, "uc".toList, [500], [30], some (6003 / 10), some 2⟩

def c7d : PeakList := ⟨"42".toList, "ud".toList, [500], [40], some (6004 / 10), some 2⟩

def c7pls : List PeakList := [c7a, c7b, c7c, c7d]

lemma c7_hitCount (i : ℕ) :
    hitCount 100 2000 (1 / 50) c7pls i = if i = 20000 then 4 else 0 := by
  have hba : memberBins 100 2000 (1 / 50) c7a = [20000] := by decide
  have hbb : memberBins 100 2000 (1 / 50) c7b = [20000] := by decide
  have hbc : memberBins 100 2000 (1 / 50) c7c = [20000] := by decide
  have hbd : memberBins 100 2000 (1 / 50) c7d = [20000] := by decide
  unfold hitCount c7pls
  rw [List.countP_cons, List.countP_cons, List.countP_cons, List.countP_cons,
    List.countP_nil, hba, hbb, hbc, hbd]
  by_cases hik : i = 20000
  · simp [hik]
  · have hik2 : ¬ (20000 = i) := fun h => hik h.symm
    simp [hik, hik2]

/-- C7: the worked 4-member scenario with the default grid and quorum
enabled yields quorum `2` and the consensus
`([500.00], [25.0], 600.25, 2)`. -/
theorem claim7 :
    combine_bin_mean c7pls 100 2000 (1 / 50) true =
      .ok ⟨[some 500], [25], 2401 / 4, 2⟩ ∧
    peakQuorumOf c7pls.length true = 2 := by
  have hq2 : peakQuorumOf c7pls.length true = 2 := by decide
  have hfields : ∀ pl ∈ c7pls, pl.precursor_mz.isSome ∧ pl.precursor_charge.isSome := by
    decide
  obtain ⟨acc, hrun, hn', hi', hm', hp', hc'⟩ :=
    runPeaklists_ok 100 2000 (1 / 50) c7pls mergeInit hfields
  have hn : ∀ i, acc.n_peaks i = hitCount 100 2000 (1 / 50) c7pls i := by
    intro i; rw [hn' i]; simp [mergeInit]
  have hi : ∀ i, acc.intensities i = intSum 100 2000 (1 / 50) c7pls i := by
    intro i; rw [hi' i]; simp [mergeInit]
  have hm : ∀ i, acc.mzs i = mzSum 100 2000 (1 / 50) c7pls i := by
    intro i; rw [hm' i]; simp [mergeInit]
  have hcs : acc.precursor_charges = [2, 2, 2, 2] := by
    rw [hc']; rfl
  have hpm : acc.precursor_mzs = [6001 / 10, 6002 / 10, 6003 / 10, 6004 / 10] := by
    rw [hp']; rfl
  refine ⟨?_, hq2⟩
  rw [combine_eq_of_run c7pls 100 2000 (1 / 50) true acc hrun, hcs]
  have huni : chargesUniform [2, 2, 2, 2] = true := by decide
  rw [huni, if_pos rfl]
  show Except.ok (assemble 100 2000 (1 / 50) (peakQuorumOf c7pls.length true) acc 2) = _
  rw [hq2]
  have hfil : (List.range (arraySizeOf 100 2000 (1 / 50))).filter
      (fun i => decide (2 ≤ acc.n_peaks i)) = [20000] := by
    apply filter_range_singleton
    · decide
    · rw [hn 20000, c7_hitCount]
      decide
    · intro i hpi
      rw [hn i, c7_hitCount] at hpi
      by_cases hik : i = 20000
      · exact hik
      · rw [if_neg hik] at hpi
        simp at hpi
  have hIntSum : intSum 100 2000 (1 / 50) c7pls 20000 = 100 := by decide
  have hMzSum : mzSum 100 2000 (1 / 50) c7pls 20000 = 2000 := by decide
  rw [assemble_eq 100 2000 (1 / 50) 2 acc 2 (by omega), hfil]
  rw [List.map_cons, List.map_nil, List.map_cons, List.map_nil]
  rw [hm 20000, hn 20000, hi 20000, hMzSum, hIntSum, c7_hitCount, hpm]
  norm_num [divEntry, listMean]

/-- C10: when any cluster of the run has two members with differing
precursor charges (precursor fields present), the whole run aborts: the
per-cluster loop of `main` propagates an error, and no output line is
produced, because the output is rendered only after every cluster has been
reduced successfully. -/
theorem claim10 (clusters : List (List Char × List PeakList)) (fmt : ℚ → List Char)
    (cid : List Char) (pls : List PeakList) (hmem : (cid, pls) ∈ clusters)
    (hfields : ∀ pl ∈ pls, pl.precursor_mz.isSome ∧ pl.precursor_charge.isSome)
    (pl1 pl2 : PeakList) (h1 : pl1 ∈ pls) (h2 : pl2 ∈ pls)
    (hne : pl1.precursor_charge ≠ pl2.precursor_charge) :
    ∃ e, processClusters clusters = .error e ∧ runMain fmt clusters = .error e := by
  have hfail := combine_error_of_nonuniform pls 100 2000 (1 / 50) true hfields
    (chargesUniform_false_of_ne pls hfields pl1 pl2 h1 h2 hne)
  obtain ⟨e', he'⟩ := processClusters_error clusters cid pls hmem _ hfail
  exact ⟨e', he', by rw [runMain, he']⟩

/-! ### Parser lemmas -/

lemma exSeq_ok (st : ParseState) (f : ParseState → Except ParseErr ParseState) :
    exSeq (.ok st) f = f st := rfl

lemma exSeq_error (e : ParseErr) (f : ParseState → Except ParseErr ParseState) :
    exSeq (.error e) f = .error e := rfl

/-- A whitespace character is not a decimal digit. -/
lemma isWs_false_of_isDigit (c : Char) (h : c.isDigit = true) : isWs c = false := by
  rcases hw : isWs c with _ | _
  · rfl
  · exfalso
    unfold isWs at hw
    simp only [Bool.or_eq_true, beq_iff_eq] at hw
    rcases hw with ((((rfl | rfl) | rfl) | rfl) | rfl) | rfl
    all_goals exact absurd h (by decide)

lemma ne_of_isDigit (c d : Char) (h : c.isDigit = true) (hd : d.isDigit = false) :
    c ≠ d := by
  intro he
  rw [he, hd] at h
  exact Bool.noConfusion h

lemma handleTitle_skip (st : ParseState) (line : List Char)
    (h : line.take 6 ≠ "TITLE=".toList) : handleTitle st line = .ok st := by
  unfold handleTitle
  rw [if_neg h]

lemma handlePepmass_skip (st : ParseState) (line : List Char)
    (h : line.take 8 ≠ "PEPMASS=".toList) : handlePepmass st line = .ok st := by
  unfold handlePepmass
  rw [if_neg h]

lemma handleCharge_skip (st : ParseState) (line : List Char)
    (h : line.take 7 ≠ "CHARGE=".toList) : handleCharge st line = .ok st := by
  unfold handleCharge
  rw [if_neg h]

lemma handlePeak_skip (st : ParseState) (line : List Char)
    (h : (match line with | [] => false | c :: _ => c.isDigit) = false) :
    handlePeak st line = .ok st := by
  unfold handlePeak
  rw [if_neg (by rw [h]; exact Bool.false_ne_true)]

lemma handleEnd_skip (st : ParseState) (line : List Char)
    (h : pyStrip line ≠ "END IONS".toList) : handleEnd st line = .ok st := by
  unfold handleEnd
  rw [if_neg h]

lemma dropWhile_append_last (p : Char → Bool) (c : Char) (hpc : p c = false) :
    ∀ (xs : List Char), (xs ++ [c]).dropWhile p = xs.dropWhile p ++ [c] := by
  intro xs
  induction xs with
  | nil => simp [List.dropWhile_cons, hpc]
  | cons x t ih =>
    by_cases hx : p x
    · simp only [List.cons_append, List.dropWhile_cons, hx, if_true, ih]
    · simp [List.dropWhile_cons, hx]

/-- Stripping a line whose first character is not whitespace keeps that
first character in place. -/
lemma pyStrip_cons (c : Char) (t : List Char) (hc : isWs c = false) :
    ∃ r, pyStrip (c :: t) = c :: r := by
  unfold pyStrip
  rw [List.dropWhile_cons, if_neg (by rw [hc]; exact Bool.false_ne_true)]
  rw [List.reverse_cons, dropWhile_append_last isWs c hc t.reverse,
    List.reverse_append]
  exact ⟨(t.reverse.dropWhile isWs).reverse, rfl⟩

/-- On a digit-initial line, the first three handlers and the final one
fall through, so the loop body is the peak handler. -/
lemma parseLine_digit (st : ParseState) (c : Char) (t : List Char)
    (hc : c.isDigit = true) :
    parseLine st (c :: t) = handlePeak st (c :: t) := by
  have hT : (c :: t).take 6 ≠ "TITLE=".toList := by
    intro he
    have h6 : (c :: t).take 6 = c :: t.take 5 := rfl
    rw [h6] at he
    exact ne_of_isDigit c 'T' hc (by decide) (by injection he)
  have hP : (c :: t).take 8 ≠ "PEPMASS=".toList := by
    intro he
    have h8 : (c :: t).take 8 = c :: t.take 7 := rfl
    rw [h8] at he
    exact ne_of_isDigit c 'P' hc (by decide) (by injection he)
  have hC : (c :: t).take 7 ≠ "CHARGE=".toList := by
    intro he
    have h7 : (c :: t).take 7 = c :: t.take 6 := rfl
    rw [h7] at he
    exact ne_of_isDigit c 'C' hc (by decide) (by injection he)
  have hE : pyStrip (c :: t) ≠ "END IONS".toList := by
    obtain ⟨r, hr⟩ := pyStrip_cons c t (isWs_false_of_isDigit c hc)
    rw [hr]
    intro he
    exact ne_of_isDigit c 'E' hc (by decide) (by injection he)
  unfold parseLine
  rw [handleTitle_skip st _ hT, exSeq_ok, handlePepmass_skip st _ hP, exSeq_ok,
    handleCharge_skip st _ hC, exSeq_ok]
  rcases hpk : handlePeak st (c :: t) with e | st4
  · rw [exSeq_error]
  · rw [exSeq_ok, handleEnd_skip st4 _ hE]

/-- Splitting a list that does not contain the separator yields a single
segment. -/
lemma splitOnChar_not_mem (sep : Char) :
    ∀ (cs : List Char), sep ∉ cs → splitOnChar sep cs = [cs] := by
  intro cs
  induction cs with
  | nil => intro _; rfl
  | cons c t ih =>
    intro h
    have hct : sep ∉ t := fun hm => h (by simp [hm])
    have hcs : ¬ (c == sep) = true := by
      intro hb
      exact h (by simp [eq_of_beq hb])
    unfold splitOnChar
    rw [ih hct]
    simp [hcs]

lemma pyStrip_subset (cs : List Char) : pyStrip cs ⊆ cs := by
  unfold pyStrip
  intro a ha
  rw [List.mem_reverse] at ha
  have h1 := List.dropWhile_sublist (l := (cs.dropWhile isWs).reverse) (p := isWs)
  have h2 := h1.mem ha
  rw [List.mem_reverse] at h2
  exact (List.dropWhile_sublist (l := cs) (p := isWs)).mem h2

lemma dropWhile_eq_self_of (p : Char → Bool) (l : List Char)
    (h : ∀ c ∈ l, p c = false) : l.dropWhile p = l := by
  cases l with
  | nil => rfl
  | cons a t =>
    rw [List.dropWhile_cons, if_neg (by rw [h a (by simp)]; exact Bool.false_ne_true)]

/-- Stripping a string with no whitespace at all is a no-op. -/
lemma pyStrip_eq_self_of_forall (l : List Char) (h : ∀ ch ∈ l, isWs ch = false) :
    pyStrip l = l := by
  unfold pyStrip
  rw [dropWhile_eq_self_of isWs l h,
    dropWhile_eq_self_of isWs l.reverse (fun ch hch => h ch (List.mem_reverse.mp hch)),
    List.reverse_reverse]

/-- Stripping a string whose first and last characters are not whitespace
is a no-op. -/
lemma pyStrip_eq_self_of_ends (l : List Char)
    (hh : ∃ d r, l = d :: r ∧ isWs d = false)
    (hl : ∃ r d, l = r ++ [d] ∧ isWs d = false) : pyStrip l = l := by
  have h1 : l.dropWhile isWs = l := by
    obtain ⟨d, r, hdr, hd⟩ := hh
    rw [hdr, List.dropWhile_cons, if_neg (by rw [hd]; exact Bool.false_ne_true)]
  have h2 : l.reverse.dropWhile isWs = l.reverse := by
    obtain ⟨r, d, hrd, hd⟩ := hl
    rw [hrd, List.reverse_append, List.reverse_singleton, List.singleton_append,
      List.dropWhile_cons, if_neg (by rw [hd]; exact Bool.false_ne_true)]
  unfold pyStrip
  rw [h1, h2, List.reverse_reverse]

/-- A non-whitespace character survives stripping. -/
lemma mem_pyStrip_of_not_ws (c : Char) (hc : isWs c = false) :
    ∀ (l : List Char), c ∈ l → c ∈ pyStrip l := by
  have hdw : ∀ (l : List Char), c ∈ l → c ∈ l.dropWhile isWs := by
    intro l
    induction l with
    | nil => intro h; simp at h
    | cons a t ih =>
      intro h
      by_cases ha : isWs a
      · rw [List.dropWhile_cons, if_pos ha]
        rcases List.mem_cons.mp h with h | h
        · exact absurd (h ▸ ha) (by rw [hc]; exact Bool.false_ne_true)
        · exact ih h
      · rw [List.dropWhile_cons, if_neg ha]
        exact h
  intro l h
  unfold pyStrip
  rw [List.mem_reverse]
  exact hdw _ (List.mem_reverse.mpr (hdw _ h))

/-- Always at least one split segment. -/
lemma splitOnChar_ne_nil (sep : Char) (cs : List Char) :
    splitOnChar sep cs ≠ [] := by
  cases cs with
  | nil => simp [splitOnChar]
  | cons c t =>
    unfold splitOnChar
    rcases splitOnChar sep t with _ | ⟨h, t'⟩
    · simp
    · by_cases hc : (c == sep) = true
      · simp [hc]
      · simp [hc]

lemma splitOnChar_cons (sep c : Char) (t : List Char) :
    splitOnChar sep (c :: t) =
      match splitOnChar sep t with
      | [] => [[]]
      | h :: t' => if c == sep then [] :: h :: t' else (c :: h) :: t' := rfl

lemma splitOnChar_sep_append (sep : Char) (b : List Char) :
    ∀ (a : List Char), sep ∉ a →
      splitOnChar sep (a ++ sep :: b) = a :: splitOnChar sep b := by
  intro a
  induction a with
  | nil =>
    intro _
    rw [List.nil_append, splitOnChar_cons]
    rcases hsp : splitOnChar sep b with _ | ⟨h0, t0⟩
    · exact absurd hsp (splitOnChar_ne_nil sep b)
    · simp
  | cons x a' ih =>
    intro h
    have hxa : sep ∉ a' := fun hm => h (by simp [hm])
    have hxs : (x == sep) = false := by
      rcases hb : (x == sep) with _ | _
      · rfl
      · exact absurd (by simp [eq_of_beq hb]) h
    rw [List.cons_append, splitOnChar_cons, ih hxa]
    simp [hxs]

/-- The number of split segments is the separator count plus one. -/
lemma splitOnChar_length (sep : Char) :
    ∀ (cs : List Char), (splitOnChar sep cs).length = cs.count sep + 1 := by
  intro cs
  induction cs with
  | nil => rfl
  | cons c t ih =>
    rw [splitOnChar_cons]
    rcases hsp : splitOnChar sep t with _ | ⟨h0, t0⟩
    · exact absurd hsp (splitOnChar_ne_nil sep t)
    · rw [hsp] at ih
      rcases hc : (c == sep) with _ | _
      · simp [hc, List.count_cons]
        simp only [List.length_cons] at ih
        omega
      · simp [hc, List.count_cons]
        simp only [List.length_cons] at ih
        omega

/-! ### Decimal digit printing and its round trip -/

lemma digitChar_isDigit (m : ℕ) : (digitChar m).isDigit = true := by
  unfold digitChar
  rcases m with _ | _ | _ | _ | _ | _ | _ | _ | _ | m
  all_goals rfl

lemma digitVal_digitChar (m : ℕ) (h : m < 10) : digitVal (digitChar m) = m := by
  interval_cases m
  all_goals rfl

lemma natDigitsAux_all_digits (fuel : ℕ) :
    ∀ (n : ℕ), ∀ ch ∈ natDigitsAux fuel n, ch.isDigit = true := by
  induction fuel with
  | zero =>
    intro n ch hch
    rcases List.mem_singleton.mp hch with rfl
    exact digitChar_isDigit _
  | succ fuel ih =>
    intro n ch hch
    unfold natDigitsAux at hch
    by_cases hn : n < 10
    · rw [if_pos hn] at hch
      rcases List.mem_singleton.mp hch with rfl
      exact digitChar_isDigit _
    · rw [if_neg hn] at hch
      rcases List.mem_append.mp hch with h | h
      · exact ih _ ch h
      · rcases List.mem_singleton.mp h with rfl
        exact digitChar_isDigit _

lemma natDigitsAux_ne_nil (fuel n : ℕ) : natDigitsAux fuel n ≠ [] := by
  cases fuel with
  | zero => simp [natDigitsAux]
  | succ fuel =>
    unfold natDigitsAux
    by_cases hn : n < 10
    · simp [hn]
    · simp [hn]

lemma digitsToNat_append_one (xs : List Char) (c : Char) :
    digitsToNat (xs ++ [c]) = 10 * digitsToNat xs + digitVal c := by
  unfold digitsToNat
  rw [List.foldl_append]
  rfl

lemma digitsToNat_natDigitsAux (fuel : ℕ) :
    ∀ (n : ℕ), n ≤ fuel → digitsToNat (natDigitsAux fuel n) = n := by
  induction fuel with
  | zero =>
    intro n h
    have hn : n = 0 := by omega
    subst hn
    rfl
  | succ fuel ih =>
    intro n h
    unfold natDigitsAux
    by_cases hn : n < 10
    · rw [if_pos hn]
      show digitsToNat [digitChar n] = n
      unfold digitsToNat
      show 10 * 0 + digitVal (digitChar n) = n
      rw [digitVal_digitChar n hn]
      omega
    · rw [if_neg hn]
      rw [digitsToNat_append_one, ih (n / 10) (by omega),
        digitVal_digitChar (n % 10) (by omega)]
      omega

lemma natDigits_all_digits (n : ℕ) : ∀ ch ∈ natDigits n, ch.isDigit = true :=
  natDigitsAux_all_digits n n

lemma natDigits_ne_nil (n : ℕ) : natDigits n ≠ [] := natDigitsAux_ne_nil n n

lemma digitsToNat_natDigits (n : ℕ) : digitsToNat (natDigits n) = n :=
  digitsToNat_natDigitsAux n n (by omega)

lemma fmtZ_not_ws (z : ℤ) : ∀ ch ∈ fmtZ z, isWs ch = false := by
  intro ch hch
  unfold fmtZ at hch
  by_cases hz : z < 0
  · rw [if_pos hz] at hch
    rcases List.mem_cons.mp hch with rfl | h
    · rfl
    · exact isWs_false_of_isDigit ch (natDigits_all_digits _ ch h)
  · rw [if_neg hz] at hch
    exact isWs_false_of_isDigit ch (natDigits_all_digits _ ch hch)

/-- `int(f"{z}")` recovers `z`: the integer formatting round-trips through
the parser's `int()`. -/
lemma pyInt_fmtZ (z : ℤ) : pyIntOfChars (fmtZ z) = some z := by
  unfold pyIntOfChars
  rw [pyStrip_eq_self_of_forall _ (fmtZ_not_ws z)]
  unfold fmtZ
  by_cases hz : z < 0
  · rw [if_pos hz]
    have hne : natDigits z.natAbs ≠ [] := natDigits_ne_nil _
    have hdg : allDigits (natDigits z.natAbs) = true := by
      unfold allDigits
      rw [List.all_eq_true]
      intro ch hch
      exact natDigits_all_digits _ ch hch
    show (if ('-' == '-') = true then
        if natDigits z.natAbs ≠ [] ∧ allDigits (natDigits z.natAbs) = true then
          some (-(digitsToNat (natDigits z.natAbs) : ℤ))
        else none
      else
        if ('-' == '+') = true then
          if natDigits z.natAbs ≠ [] ∧ allDigits (natDigits z.natAbs) = true then
            some ((digitsToNat (natDigits z.natAbs) : ℤ))
          else none
        else if allDigits ('-' :: natDigits z.natAbs) = true then
          some ((digitsToNat ('-' :: natDigits z.natAbs) : ℤ))
        else none) = some z
    have e1 : (('-' == '-') = true) := rfl
    rw [if_pos e1, if_pos ⟨hne, hdg⟩, digitsToNat_natDigits]
    congr 1
    omega
  · rw [if_neg hz]
    rcases hnd : natDigits z.natAbs with _ | ⟨d, r⟩
    · exact absurd hnd (natDigits_ne_nil _)
    · have hd : d.isDigit = true := by
        apply natDigits_all_digits z.natAbs
        rw [hnd]
        simp
      have hm : (d == '-') = false := by
        rcases hb : (d == '-') with _ | _
        · rfl
        · exact absurd (eq_of_beq hb) (ne_of_isDigit d '-' hd (by decide))
      have hp : (d == '+') = false := by
        rcases hb : (d == '+') with _ | _
        · rfl
        · exact absurd (eq_of_beq hb) (ne_of_isDigit d '+' hd (by decide))
      have hdg : allDigits (d :: r) = true := by
        unfold allDigits
        rw [List.all_eq_true]
        intro ch hch
        apply natDigits_all_digits z.natAbs
        rw [hnd]
        exact hch
      simp only [hm, hp, if_false, Bool.false_eq_true, hdg, if_true]
      rw [← hnd, digitsToNat_natDigits]
      congr 1
      omega

/-- Stripping the trailing `+` sign marker recovers the charge text. -/
lemma stripPlus_append_plus (x : List Char)
    (hh : ∃ d r, x = d :: r ∧ (d == '+') = false)
    (hl : ∃ r d, x = r ++ [d] ∧ (d == '+') = false) :
    stripPlus (x ++ ['+']) = x := by
  obtain ⟨d, r, hdr, hd⟩ := hh
  obtain ⟨r2, e, hre, he⟩ := hl
  unfold stripPlus
  have h1 : (x ++ ['+']).dropWhile (fun c => c == '+') = x ++ ['+'] := by
    rw [hdr, List.cons_append, List.dropWhile_cons,
      if_neg (by rw [hd]; exact Bool.false_ne_true)]
  rw [h1, List.reverse_append, List.reverse_singleton, List.singleton_append,
    List.dropWhile_cons, if_pos (by rfl)]
  have h2 : x.reverse.dropWhile (fun c => c == '+') = x.reverse := by
    rw [hre, List.reverse_append, List.reverse_singleton, List.singleton_append,
      List.dropWhile_cons, if_neg (by rw [he]; exact Bool.false_ne_true)]
  rw [h2, List.reverse_reverse]

/-- The structure of the charge text: head and last characters are never a
`+`. -/
lemma fmtZ_ends (z : ℤ) :
    (∃ d r, fmtZ z = d :: r ∧ (d == '+') = false) ∧
    (∃ r d, fmtZ z = r ++ [d] ∧ (d == '+') = false) := by
  have hlast : ∃ r d, natDigits z.natAbs = r ++ [d] ∧ (d == '+') = false := by
    rcases List.eq_nil_or_concat (natDigits z.natAbs) with h | ⟨r, d, h⟩
    · exact absurd h (natDigits_ne_nil _)
    · rw [List.concat_eq_append] at h
      refine ⟨r, d, h, ?_⟩
      have hd : d.isDigit = true := by
        apply natDigits_all_digits z.natAbs
        rw [h]
        simp
      rcases hb : (d == '+') with _ | _
      · rfl
      · exact absurd (eq_of_beq hb) (ne_of_isDigit d '+' hd (by decide))
  constructor
  · unfold fmtZ
    by_cases hz : z < 0
    · rw [if_pos hz]
      exact ⟨'-', natDigits z.natAbs, rfl, by decide⟩
    · rw [if_neg hz]
      rcases hnd : natDigits z.natAbs with _ | ⟨d, r⟩
      · exact absurd hnd (natDigits_ne_nil _)
      · have hd : d.isDigit = true := by
          apply natDigits_all_digits z.natAbs
          rw [hnd]
          simp
        refine ⟨d, r, rfl, ?_⟩
        rcases hb : (d == '+') with _ | _
        · rfl
        · exact absurd (eq_of_beq hb) (ne_of_isDigit d '+' hd (by decide))
  · unfold fmtZ
    by_cases hz : z < 0
    · rw [if_pos hz]
      obtain ⟨r, d, h, hd⟩ := hlast
      exact ⟨'-' :: r, d, by rw [h]; rfl, hd⟩
    · rw [if_neg hz]
      exact hlast

/-! ### Parsing the serializer's lines -/

lemma take_cons_ne (c d : Char) (r t : List Char) (n : ℕ) (hne : c ≠ d) :
    (c :: r).take (n + 1) ≠ d :: t := by
  rw [List.take_succ_cons]
  intro he
  exact hne (by injection he)

lemma parse_begin (st : ParseState) :
    parseLine st ("BEGIN IONS".toList) = .ok st := rfl

lemma parse_blank (st : ParseState) : parseLine st [] = .ok st := rfl

/-- `END IONS` emits the current record unconditionally. -/
lemma parse_end_ok (pl : PeakList) (specs : List PeakList) :
    parseLine ⟨some pl, specs⟩ ("END IONS".toList) =
      .ok ⟨some pl, specs ++ [pl]⟩ := rfl

/-- The `TITLE=` line of a serialized record opens a fresh record named by
the semicolon split of the title. -/
lemma parse_title_line (st : ParseState) (cid : List Char)
    (p0 p1 : List Char) (rest : List (List Char))
    (hsplit : splitOnChar ';' (pyStrip cid) = p0 :: p1 :: rest) :
    parseLine st ("TITLE=".toList ++ cid) =
      .ok { st with current := some ⟨p0, p1, [], [], none, none⟩ } := by
  have hline : "TITLE=".toList ++ cid = 'T' :: ("ITLE=".toList ++ cid) := rfl
  have hT : handleTitle st ("TITLE=".toList ++ cid) =
      .ok { st with current := some ⟨p0, p1, [], [], none, none⟩ } := by
    unfold handleTitle
    rw [if_pos (List.take_left' (by rfl)), List.drop_left' (by rfl), hsplit]
  unfold parseLine
  rw [hT, exSeq_ok,
    handlePepmass_skip _ _ (by rw [hline]; exact take_cons_ne 'T' 'P' _ _ 7 (by decide)),
    exSeq_ok,
    handleCharge_skip _ _ (by rw [hline]; exact take_cons_ne 'T' 'C' _ _ 6 (by decide)),
    exSeq_ok,
    handlePeak_skip _ _ (by rw [hline]; rfl),
    exSeq_ok]
  apply handleEnd_skip
  rw [hline]
  obtain ⟨r, hr⟩ := pyStrip_cons 'T' _ (by decide)
  rw [hr]
  intro he
  have : 'T' = 'E' := by injection he
  exact absurd this (by decide)

/-- The `PEPMASS=` line of a serialized record sets the precursor mass via
`float`. -/
lemma parse_pepmass_line (st : ParseState) (pl : PeakList)
    (hcur : st.current = some pl) (tok : List Char) (v : ℚ)
    (hv : pyFloatOfChars tok = some v) :
    parseLine st ("PEPMASS=".toList ++ tok) =
      .ok { st with current := some { pl with precursor_mz := some v } } := by
  have hline : "PEPMASS=".toList ++ tok = 'P' :: ("EPMASS=".toList ++ tok) := rfl
  have hPM : handlePepmass st ("PEPMASS=".toList ++ tok) =
      .ok { st with current := some { pl with precursor_mz := some v } } := by
    unfold handlePepmass
    rw [if_pos (List.take_left' (by rfl)), hcur, List.drop_left' (by rfl), hv]
  unfold parseLine
  rw [handleTitle_skip _ _ (by rw [hline]; exact take_cons_ne 'P' 'T' _ _ 5 (by decide)),
    exSeq_ok, hPM, exSeq_ok,
    handleCharge_skip _ _ (by rw [hline]; exact take_cons_ne 'P' 'C' _ _ 6 (by decide)),
    exSeq_ok,
    handlePeak_skip _ _ (by rw [hline]; rfl),
    exSeq_ok]
  apply handleEnd_skip
  rw [hline]
  obtain ⟨r, hr⟩ := pyStrip_cons 'P' _ (by decide)
  rw [hr]
  intro he
  have : 'P' = 'E' := by injection he
  exact absurd this (by decide)

/-- The `CHARGE=` line of a serialized record sets the precursor charge:
the trailing sign marker is stripped and the integer text round-trips. -/
lemma parse_charge_line (st : ParseState) (pl : PeakList)
    (hcur : st.current = some pl) (c : ℤ) :
    parseLine st ("CHARGE=".toList ++ fmtZ c ++ ['+']) =
      .ok { st with current := some { pl with precursor_charge := some c } } := by
  have hassoc : "CHARGE=".toList ++ fmtZ c ++ ['+']
      = "CHARGE=".toList ++ (fmtZ c ++ ['+']) := by
    rw [List.append_assoc]
  have hline : "CHARGE=".toList ++ (fmtZ c ++ ['+'])
      = 'C' :: ("HARGE=".toList ++ (fmtZ c ++ ['+'])) := rfl
  have hplus : ∀ ch ∈ fmtZ c ++ ['+'], isWs ch = false := by
    intro ch hch
    rcases List.mem_append.mp hch with h | h
    · exact fmtZ_not_ws c ch h
    · rcases List.mem_singleton.mp h with rfl
      rfl
  have hCH : handleCharge st ("CHARGE=".toList ++ (fmtZ c ++ ['+'])) =
      .ok { st with current := some { pl with precursor_charge := some c } } := by
    unfold handleCharge
    rw [if_pos (List.take_left' (by rfl)), hcur, List.drop_left' (by rfl)]
    rw [pyStrip_eq_self_of_forall _ hplus,
      stripPlus_append_plus (fmtZ c) (fmtZ_ends c).1 (fmtZ_ends c).2,
      pyInt_fmtZ c]
  rw [hassoc]
  unfold parseLine
  rw [handleTitle_skip _ _ (by rw [hline]; exact take_cons_ne 'C' 'T' _ _ 5 (by decide)),
    exSeq_ok,
    handlePepmass_skip _ _ (by rw [hline]; exact take_cons_ne 'C' 'P' _ _ 7 (by decide)),
    exSeq_ok, hCH, exSeq_ok,
    handlePeak_skip _ _ (by rw [hline]; rfl),
    exSeq_ok]
  apply handleEnd_skip
  rw [hline]
  obtain ⟨r, hr⟩ := pyStrip_cons 'C' _ (by decide)
  rw [hr]
  intro he
  have : 'C' = 'E' := by injection he
  exact absurd this (by decide)

/-- A well-formed digit-initial peak line appends the two parsed floats to
the parallel arrays. -/
lemma parseLine_peak_ok (st : ParseState) (pl : PeakList)
    (hcur : st.current = some pl) (c : Char) (t : List Char)
    (hc : c.isDigit = true) (t0 t1 : List Char) (rest : List (List Char))
    (hsplit : splitOnChar ' ' (pyStrip (c :: t)) = t0 :: t1 :: rest)
    (x y : ℚ) (hx : pyFloatOfChars t0 = some x) (hy : pyFloatOfChars t1 = some y) :
    parseLine st (c :: t) = .ok { st with current := some { pl with
      mz_array := pl.mz_array ++ [x],
      intensity_array := pl.intensity_array ++ [y] } } := by
  rw [parseLine_digit st c t hc]
  unfold handlePeak
  rw [if_pos (by exact hc), hcur, hsplit]
  simp [hx, hy]

/-! ### Claims C8 and C9 -/

/-- C8 counterexample: an `END IONS` reached while neither the precursor
mass nor the charge has been set does NOT raise — the incomplete record is
emitted (its failure would only surface later, inside the binning
engine). -/
theorem claim8_counterexample :
    read_spectra_clustered_mgf ["TITLE=a;b".toList, "END IONS".toList] =
      .ok [("a".toList,
        [⟨"a".toList, "b".toList, [], [], none, none⟩])] := by decide

/-- C8 (amended): the parser raises on a title line without a semicolon
(`IndexError`) and on a digit-initial peak line with a non-numeric or
missing token (`ValueError`/`IndexError`); it does NOT check completeness
at the end-of-record marker: `END IONS` emits the current record as-is,
even with both precursor fields unset. -/
theorem claim8_amended (st : ParseState) :
    (∀ line : List Char, line.take 6 = "TITLE=".toList → ';' ∉ line →
      parseLine st line = .error .indexErr) ∧
    (∀ (pl : PeakList), st.current = some pl →
      ∀ (c : Char) (t : List Char), c.isDigit = true →
      (∀ t0 rest, splitOnChar ' ' (pyStrip (c :: t)) = t0 :: rest →
        pyFloatOfChars t0 = none →
        parseLine st (c :: t) = .error .valueErr) ∧
      (∀ t0 x, splitOnChar ' ' (pyStrip (c :: t)) = [t0] →
        pyFloatOfChars t0 = some x →
        parseLine st (c :: t) = .error .indexErr) ∧
      (∀ t0 t1 rest x, splitOnChar ' ' (pyStrip (c :: t)) = t0 :: t1 :: rest →
        pyFloatOfChars t0 = some x → pyFloatOfChars t1 = none →
        parseLine st (c :: t) = .error .valueErr)) ∧
    (∀ (pl : PeakList) (specs : List PeakList),
      parseLine ⟨some pl, specs⟩ ("END IONS".toList) =
        .ok ⟨some pl, specs ++ [pl]⟩) := by
  refine ⟨?_, ?_, ?_⟩
  · intro line htake hsem
    have hsem6 : ';' ∉ pyStrip (line.drop 6) :=
      fun hm => hsem (List.drop_subset 6 line (pyStrip_subset _ hm))
    have hsplit := splitOnChar_not_mem ';' _ hsem6
    have hT : handleTitle st line = .error .indexErr := by
      unfold handleTitle
      rw [if_pos htake, hsplit]
    unfold parseLine
    rw [hT, exSeq_error]
  · intro pl hcur c t hc
    have hstep := parseLine_digit st c t hc
    refine ⟨?_, ?_, ?_⟩
    · intro t0 rest hsplit hbad
      rw [hstep]
      unfold handlePeak
      rw [if_pos (by exact hc), hcur, hsplit]
      simp [hbad]
    · intro t0 x hsplit hx
      rw [hstep]
      unfold handlePeak
      rw [if_pos (by exact hc), hcur, hsplit]
      simp [hx]
    · intro t0 t1 rest x hsplit hx hbad
      rw [hstep]
      unfold handlePeak
      rw [if_pos (by exact hc), hcur, hsplit]
      simp [hx, hbad]
  · intro pl specs
    rfl

/-- Witness for C8 (amended) at concrete malformed and incomplete lines. -/
theorem claim8_witness :
    parseLine ⟨none, []⟩ ("TITLE=abc".toList) = .error .indexErr ∧
    parseLine ⟨some ⟨"a".toList, "b".toList, [], [], none, none⟩, []⟩
        ("1x 2".toList) = .error .valueErr ∧
    parseLine ⟨some ⟨"a".toList, "b".toList, [], [], none, none⟩, []⟩
        ("100.5".toList) = .error .indexErr ∧
    parseLine ⟨some ⟨"a".toList, "b".toList, [], [], none, none⟩, []⟩
        ("100.5 x".toList) = .error .valueErr ∧
    parseLine ⟨some ⟨"a".toList, "b".toList, [], [], none, none⟩, []⟩
        ("END IONS".toList) =
      .ok ⟨some ⟨"a".toList, "b".toList, [], [], none, none⟩,
        [⟨"a".toList, "b".toList, [], [], none, none⟩]⟩ :=
  ⟨(claim8_amended ⟨none, []⟩).1 ("TITLE=abc".toList) (by decide) (by decide),
   ((claim8_amended _).2.1 ⟨"a".toList, "b".toList, [], [], none, none⟩ rfl
      '1' "x 2".toList (by decide)).1 "1x".toList ["2".toList] (by decide) (by decide),
   ((claim8_amended _).2.1 ⟨"a".toList, "b".toList, [], [], none, none⟩ rfl
      '1' "00.5".toList (by decide)).2.1 "100.5".toList (201 / 2) (by decide) (by decide),
   ((claim8_amended _).2.1 ⟨"a".toList, "b".toList, [], [], none, none⟩ rfl
      '1' "00.5 x".toList (by decide)).2.2 "100.5".toList "x".toList [] (201 / 2)
      (by decide) (by decide) (by decide),
   (claim8_amended ⟨some ⟨"a".toList, "b".toList, [], [], none, none⟩, []⟩).2.2
      ⟨"a".toList, "b".toList, [], [], none, none⟩ []⟩

/-- C9 counterexample: a peak line whose two numbers are separated by a
tab rather than a single space makes the parser raise `ValueError`
(`split(' ')` does not split on tabs, and `float` rejects the joint
token), instead of parsing the pair. -/
theorem claim9_counterexample :
    read_spectra_clustered_mgf
      ["TITLE=a;b".toList, "PEPMASS=600".toList, "CHARGE=2+".toList,
       ['1', '0', '0', '.', '5', '\t', '3'], "END IONS".toList] =
      .error .valueErr := by decide

/-- C9 (amended): a digit-initial line is split on SINGLE SPACES only
(tabs or runs of spaces raise instead); when the first two tokens parse as
floats they are appended to the m/z and intensity arrays respectively
(extra tokens are ignored), keeping the two arrays the same length. -/
theorem claim9_amended (st : ParseState) (pl : PeakList)
    (hcur : st.current = some pl) (c : Char) (t : List Char)
    (hc : c.isDigit = true) (t0 t1 : List Char) (rest : List (List Char))
    (hsplit : splitOnChar ' ' (pyStrip (c :: t)) = t0 :: t1 :: rest)
    (x y : ℚ) (hx : pyFloatOfChars t0 = some x) (hy : pyFloatOfChars t1 = some y) :
    parseLine st (c :: t) = .ok { st with current := some { pl with
      mz_array := pl.mz_array ++ [x],
      intensity_array := pl.intensity_array ++ [y] } } ∧
    (pl.mz_array.length = pl.intensity_array.length →
      (pl.mz_array ++ [x]).length = (pl.intensity_array ++ [y]).length) := by
  constructor
  · exact parseLine_peak_ok st pl hcur c t hc t0 t1 rest hsplit x y hx hy
  · intro hlen
    simp [hlen]

/-- Witness for C9 (amended) at a concrete well-formed peak line. -/
theorem claim9_witness :
    parseLine ⟨some ⟨"a".toList, "b".toList, [], [], none, none⟩, []⟩
        ("100.5 3.25".toList) =
      .ok ⟨some ⟨"a".toList, "b".toList, [201 / 2], [13 / 4], none, none⟩, []⟩ ∧
    (([] : List ℚ).length = ([] : List ℚ).length →
      ([] ++ [(201 / 2 : ℚ)]).length = ([] ++ [(13 / 4 : ℚ)]).length) :=
  claim9_amended ⟨some ⟨"a".toList, "b".toList, [], [], none, none⟩, []⟩
    ⟨"a".toList, "b".toList, [], [], none, none⟩ rfl
    '1' "00.5 3.25".toList (by decide) "100.5".toList "3.25".toList []
    (by decide) (201 / 2) (13 / 4) (by decide) (by decide)

/-! ### Claim C2: serializer-to-parser round trip -/

lemma parseLines_cons (st st' : ParseState) (l : List Char) (ls : List (List Char))
    (h : parseLine st l = .ok st') :
    parseLines st (l :: ls) = parseLines st' ls := by
  unfold parseLines
  rw [h]
  rcases ls with _ | ⟨l', ls'⟩
  · rfl
  · rfl

lemma parseLines_append (l2 : List (List Char)) :
    ∀ (l1 : List (List Char)) (st : ParseState),
      parseLines st (l1 ++ l2) =
        match parseLines st l1 with
        | .error e => .error e
        | .ok st' => parseLines st' l2 := by
  intro l1
  induction l1 with
  | nil => intro st; rfl
  | cons l ls ih =>
    intro st
    rw [List.cons_append]
    rcases hl : parseLine st l with e | st'
    · have h1 : parseLines st (l :: (ls ++ l2)) = .error e := by
        unfold parseLines; rw [hl]
      have h2 : parseLines st (l :: ls) = .error e := by
        unfold parseLines; rw [hl]
      rw [h1, h2]
    · rw [parseLines_cons st st' l (ls ++ l2) hl, parseLines_cons st st' l ls hl,
        ih st']

/-- Parsing the block of serialized peak lines appends all the value pairs
to the current record. -/
lemma parse_peaks (fmt : ℚ → List Char) :
    ∀ (ps : List (ℚ × ℚ)),
      (∀ p ∈ ps,
        (∃ d r, fmt p.1 = d :: r ∧ d.isDigit = true) ∧
        pyFloatOfChars (fmt p.1) = some p.1 ∧
        pyFloatOfChars (fmt p.2) = some p.2 ∧
        (∀ ch ∈ fmt p.1, isWs ch = false) ∧
        (∀ ch ∈ fmt p.2, isWs ch = false) ∧ fmt p.2 ≠ []) →
      ∀ (pl : PeakList) (specs : List PeakList),
        parseLines ⟨some pl, specs⟩ (ps.map (fun p => fmt p.1 ++ ' ' :: fmt p.2)) =
          .ok ⟨some { pl with
            mz_array := pl.mz_array ++ ps.map Prod.fst,
            intensity_array := pl.intensity_array ++ ps.map Prod.snd }, specs⟩ := by
  intro ps
  induction ps with
  | nil =>
    intro _ pl specs
    show Except.ok _ = _
    simp
  | cons p ps' ih =>
    intro hp pl specs
    obtain ⟨⟨d, r, hdr, hd⟩, hx, hy, hws1, hws2, hne2⟩ := hp p (by simp)
    have hline : fmt p.1 ++ ' ' :: fmt p.2 = d :: (r ++ ' ' :: fmt p.2) := by
      rw [hdr]; rfl
    obtain ⟨r2, e2, hre, hwe⟩ : ∃ r2 e2, fmt p.2 = r2 ++ [e2] ∧ isWs e2 = false := by
      rcases List.eq_nil_or_concat (fmt p.2) with h | ⟨r2, e2, h⟩
      · exact absurd h hne2
      · rw [List.concat_eq_append] at h
        exact ⟨r2, e2, h, hws2 e2 (by rw [h]; simp)⟩
    have hstrip : pyStrip (fmt p.1 ++ ' ' :: fmt p.2) = fmt p.1 ++ ' ' :: fmt p.2 := by
      apply pyStrip_eq_self_of_ends
      · exact ⟨d, r ++ ' ' :: fmt p.2, by rw [hdr]; rfl,
          isWs_false_of_isDigit d hd⟩
      · exact ⟨fmt p.1 ++ ' ' :: r2, e2, by rw [hre]; simp, hwe⟩
    have hnosp1 : ' ' ∉ fmt p.1 := by
      intro hm
      have := hws1 ' ' hm
      exact absurd this (by decide)
    have hnosp2 : ' ' ∉ fmt p.2 := by
      intro hm
      have := hws2 ' ' hm
      exact absurd this (by decide)
    have hsplit : splitOnChar ' ' (pyStrip (d :: (r ++ ' ' :: fmt p.2)))
        = fmt p.1 :: fmt p.2 :: [] := by
      rw [← hline, hstrip, splitOnChar_sep_append ' ' (fmt p.2) (fmt p.1) hnosp1,
        splitOnChar_not_mem ' ' (fmt p.2) hnosp2]
    have hstep : parseLine ⟨some pl, specs⟩ (fmt p.1 ++ ' ' :: fmt p.2) =
        .ok ⟨some { pl with
          mz_array := pl.mz_array ++ [p.1],
          intensity_array := pl.intensity_array ++ [p.2] }, specs⟩ := by
      rw [hline]
      exact parseLine_peak_ok ⟨some pl, specs⟩ pl rfl d (r ++ ' ' :: fmt p.2) hd
        (fmt p.1) (fmt p.2) [] hsplit p.1 p.2 hx hy
    rw [List.map_cons, parseLines_cons _ _ _ _ hstep,
      ih (fun q hq => hp q (by simp [hq]))]
    simp [List.append_assoc]

lemma groupClusters_single (pl : PeakList) :
    groupClusters [pl] = [(pl.cluster_id, [pl])] := rfl

/-- A concrete decimal formatting adequate for integer-valued rationals,
used to instantiate the serializer in the closed theorems. -/
def fmtWhole (q : ℚ) : List Char := fmtZ q.num ++ ('.' :: ['0'])

/-- C2 counterexample: the serializer writes `TITLE=<cluster_id>` with no
semicolon, so re-parsing its own output dies with `IndexError` at
`title.split(';')[1]` — the round trip fails before any peak is read. -/
theorem claim2_counterexample :
    read_spectra_clustered_mgf
      (write_spectrum fmtWhole [("7".toList,
        MergedSpectrum.mk [some 500] [25] 600 2)]) = .error .indexErr := by decide

/-- C2 (amended): serializing a consensus spectrum and re-parsing it
yields a record with the same (mass, intensity) pairs and the same
precursor mass and charge — PROVIDED the cluster id contains a semicolon;
otherwise (as for the ids the pipeline itself produces) the parse fails
with `IndexError` as in the counterexample.  `fmt` abstracts Python float
repr: it must round-trip through `float`, contain no whitespace, and print
nonnegative masses digit-first, all true of repr on the values involved. -/
theorem claim2_amended (fmt : ℚ → List Char) (cid : List Char)
    (mzv ints : List ℚ) (pmz : ℚ) (c : ℤ)
    (hsem : ';' ∈ cid)
    (hgood : ∀ q ∈ pmz :: (mzv ++ ints),
      pyFloatOfChars (fmt q) = some q ∧ fmt q ≠ [] ∧
        ∀ ch ∈ fmt q, isWs ch = false)
    (hdig : ∀ q ∈ mzv, ∃ d r, fmt q = d :: r ∧ d.isDigit = true)
    (hlen : mzv.length = ints.length) :
    ∃ cid0 usi0,
      read_spectra_clustered_mgf
        (write_spectrum fmt [(cid, MergedSpectrum.mk (mzv.map some) ints pmz c)]) =
        .ok [(cid0, [⟨cid0, usi0, mzv, ints, some pmz, some c⟩])] := by
  have hsem2 : ';' ∈ pyStrip cid := mem_pyStrip_of_not_ws ';' (by decide) cid hsem
  have hcount : 0 < (pyStrip cid).count ';' := List.count_pos_iff.mpr hsem2
  have hlen2 : 2 ≤ (splitOnChar ';' (pyStrip cid)).length := by
    rw [splitOnChar_length]
    omega
  obtain ⟨p0, p1, rest, hsplit⟩ :
      ∃ p0 p1 rest, splitOnChar ';' (pyStrip cid) = p0 :: p1 :: rest := by
    rcases hsp : splitOnChar ';' (pyStrip cid) with _ | ⟨p0, t⟩
    · rw [hsp] at hlen2; simp at hlen2
    · rcases t with _ | ⟨p1, rest⟩
      · rw [hsp] at hlen2; simp at hlen2
      · exact ⟨p0, p1, rest, rfl⟩
  refine ⟨p0, p1, ?_⟩
  have hpmz := hgood pmz (by simp)
  have hzip : (((mzv.map some).zip ints).map
        (fun p => fmtOpt fmt p.1 ++ ' ' :: fmt p.2))
      = (mzv.zip ints).map (fun p => fmt p.1 ++ ' ' :: fmt p.2) := by
    rw [List.zip_map_left, List.map_map]
    rfl
  have hw : write_spectrum fmt [(cid, MergedSpectrum.mk (mzv.map some) ints pmz c)] =
      "BEGIN IONS".toList ::
      ("TITLE=".toList ++ cid) ::
      ("PEPMASS=".toList ++ fmt pmz) ::
      ("CHARGE=".toList ++ fmtZ c ++ ['+']) ::
      (((mzv.zip ints).map (fun p => fmt p.1 ++ ' ' :: fmt p.2)) ++
        ["END IONS".toList, []]) := by
    unfold write_spectrum spectrumLines
    rw [List.map_cons, List.map_nil, List.flatten_cons, List.flatten_nil,
      List.append_nil]
    show (("BEGIN IONS".toList ::
      ("TITLE=".toList ++ cid) ::
      ("PEPMASS=".toList ++ fmt pmz) ::
      ("CHARGE=".toList ++ fmtZ c ++ ['+']) ::
      (((mzv.map some).zip ints).map (fun p => fmtOpt fmt p.1 ++ ' ' :: fmt p.2)))
        ++ ["END IONS".toList, []]) = _
    rw [hzip]
    simp [List.cons_append]
  rw [hw]
  have h1 : parseLine (⟨none, []⟩ : ParseState) ("TITLE=".toList ++ cid)
      = .ok ⟨some ⟨p0, p1, [], [], none, none⟩, []⟩ :=
    parse_title_line ⟨none, []⟩ cid p0 p1 rest hsplit
  have h2 : parseLine (⟨some ⟨p0, p1, [], [], none, none⟩, []⟩ : ParseState)
      ("PEPMASS=".toList ++ fmt pmz)
      = .ok ⟨some ⟨p0, p1, [], [], some pmz, none⟩, []⟩ :=
    parse_pepmass_line _ ⟨p0, p1, [], [], none, none⟩ rfl (fmt pmz) pmz hpmz.1
  have h3 : parseLine (⟨some ⟨p0, p1, [], [], some pmz, none⟩, []⟩ : ParseState)
      ("CHARGE=".toList ++ fmtZ c ++ ['+'])
      = .ok ⟨some ⟨p0, p1, [], [], some pmz, some c⟩, []⟩ :=
    parse_charge_line _ ⟨p0, p1, [], [], some pmz, none⟩ rfl c
  have hps : ∀ p ∈ mzv.zip ints,
      (∃ d r, fmt p.1 = d :: r ∧ d.isDigit = true) ∧
      pyFloatOfChars (fmt p.1) = some p.1 ∧
      pyFloatOfChars (fmt p.2) = some p.2 ∧
      (∀ ch ∈ fmt p.1, isWs ch = false) ∧
      (∀ ch ∈ fmt p.2, isWs ch = false) ∧ fmt p.2 ≠ [] := by
    intro p hp
    rcases p with ⟨a, b⟩
    have hab := List.of_mem_zip hp
    have hg1 := hgood a (by simp [hab.1])
    have hg2 := hgood b (by simp [hab.2])
    exact ⟨hdig a hab.1, hg1.1, hg2.1, hg1.2.2, hg2.2.2, hg2.2.1⟩
  have h4 := parse_peaks fmt (mzv.zip ints) hps
      ⟨p0, p1, [], [], some pmz, some c⟩ []
  rw [List.map_fst_zip mzv ints (le_of_eq hlen),
    List.map_snd_zip mzv ints (le_of_eq hlen.symm)] at h4
  have h4' : parseLines (⟨some ⟨p0, p1, [], [], some pmz, some c⟩, []⟩ : ParseState)
      ((mzv.zip ints).map (fun p => fmt p.1 ++ ' ' :: fmt p.2))
      = .ok ⟨some ⟨p0, p1, mzv, ints, some pmz, some c⟩, []⟩ := by
    rw [h4]
    simp
  have htail : parseLines
      (⟨some ⟨p0, p1, mzv, ints, some pmz, some c⟩, []⟩ : ParseState)
      ["END IONS".toList, []]
      = .ok ⟨some ⟨p0, p1, mzv, ints, some pmz, some c⟩,
          [⟨p0, p1, mzv, ints, some pmz, some c⟩]⟩ := by
    rw [parseLines_cons _ _ _ _
      (parse_end_ok ⟨p0, p1, mzv, ints, some pmz, some c⟩ []),
      parseLines_cons _ _ _ _ (parse_blank _)]
    rfl
  have hparse : parseLines (⟨none, []⟩ : ParseState)
      ("BEGIN IONS".toList ::
        ("TITLE=".toList ++ cid) ::
        ("PEPMASS=".toList ++ fmt pmz) ::
        ("CHARGE=".toList ++ fmtZ c ++ ['+']) ::
        (((mzv.zip ints).map (fun p => fmt p.1 ++ ' ' :: fmt p.2)) ++
          ["END IONS".toList, []]))
      = .ok ⟨some ⟨p0, p1, mzv, ints, some pmz, some c⟩,
          [⟨p0, p1, mzv, ints, some pmz, some c⟩]⟩ := by
    rw [parseLines_cons _ _ _ _ (parse_begin _), parseLines_cons _ _ _ _ h1,
      parseLines_cons _ _ _ _ h2, parseLines_cons _ _ _ _ h3,
      parseLines_append _ _ _, h4']
    exact htail
  unfold read_spectra_clustered_mgf
  rw [hparse]
  show Except.ok
      (groupClusters [(⟨p0, p1, mzv, ints, some pmz, some c⟩ : PeakList)]) = _
  rw [groupClusters_single]

/-- Witness for C2 (amended) with a semicolon-bearing cluster id and the
concrete decimal formatter. -/
theorem claim2_witness :
    ∃ cid0 usi0,
      read_spectra_clustered_mgf
        (write_spectrum fmtWhole [("a;b".toList,
          MergedSpectrum.mk ([(500 : ℚ)].map some) [25] 600 2)]) =
        .ok [(cid0, [⟨cid0, usi0, [500], [25], some 600, some 2⟩])] :=
  claim2_amended fmtWhole "a;b".toList [500] [25] 600 2 (by decide) (by decide)
    (by
      intro q hq
      rw [List.mem_singleton] at hq
      subst hq
      exact ⟨'5', "00.0".toList, by decide, by decide⟩)
    (by decide)

/-- Witness for C10: a one-cluster run with mismatched charges yields no
output. -/
theorem claim10_witness :
    ∃ e, processClusters [("c".toList,
        [⟨"c".toList, "u".toList, [], [], some 1, some 1⟩,
         ⟨"c".toList, "v".toList, [], [], some 1, some 2⟩])] = .error e ∧
      runMain (fun _ => []) [("c".toList,
        [⟨"c".toList, "u".toList, [], [], some 1, some 1⟩,
         ⟨"c".toList, "v".toList, [], [], some 1, some 2⟩])] = .error e :=
  claim10 _ (fun _ => []) "c".toList
    [⟨"c".toList, "u".toList, [], [], some 1, some 1⟩,
     ⟨"c".toList, "v".toList, [], [], some 1, some 2⟩] (by simp)
    (by decide)
    ⟨"c".toList, "u".toList, [], [], some 1, some 1⟩
    ⟨"c".toList, "v".toList, [], [], some 1, some 2⟩
    (by decide) (by decide) (by decide)
theorem claim3_witness :
    peakQuorumOf ([⟨"c".toList, "u".toList, [1], [5], some 10, some 1⟩] :
        List PeakList).length true = (if true then 1 / 4 + 1 else 1) ∧
    (MergedSpectrum.mk [some 1] [5] 10 1).intensities =
      ((List.range (arraySizeOf 0 2 1)).filter
        (fun i => decide (peakQuorumOf 1 true ≤
          hitCount 0 2 1 [⟨"c".toList, "u".toList, [1], [5], some 10, some 1⟩] i))).map
        (fun i => intSum 0 2 1 [⟨"c".toList, "u".toList, [1], [5], some 10, some 1⟩] i /
          (hitCount 0 2 1 [⟨"c".toList, "u".toList, [1], [5], some 10, some 1⟩] i : ℚ)) :=
  claim3 [⟨"c".toList, "u".toList, [1], [5], some 10, some 1⟩] 0 2 1 true
    ⟨[some 1], [5], 10, 1⟩ (by decide)

end Specpride
